import Mathlib

/-!
# Rubinius thread nexus: phase and lock protocol

A shallow embedding of `machine/thread_nexus.cpp` (class `ThreadNexus`).

* Objects living behind C++ pointers (`VM*`, `Thread*`, `Fiber*`) are kept in
  a heap indexed by addresses (`Ptr`); pointer comparison `vm == current` is
  equality of addresses.
* The 32-bit and 64-bit unsigned integers of the source are natural numbers,
  reduced modulo `2^32` / `2^64` where the source can overflow.
* A member function becomes a function from the process state (`World`) to an
  `Outcome`: it returns a value, raises one of the fatal conditions, is
  blocked on a mutex, or leaves the behaviour C++ defines.  Every outcome
  carries the state at that moment.
* The `while` loops of the source take a fuel argument, one unit per
  iteration, and answer `none` when the fuel runs out; the theorems give the
  fuel that is enough.
* What other threads do while a call is waiting is an argument of the waiting
  loops (`env`), applied before every read of shared state.
* Constants and helpers of headers that are not part of the sources at hand are
  arguments (`cLockLimit`, `yield`, the collector poll) or are modelled from the
  specification, which the comment of the definition then says.
-/

namespace Rubinius

/-- An address of an object (`VM*`, `Thread*`, `Fiber*`). -/
abbrev Ptr := Nat

/-- Modelled from the spec: the `ThreadNexus::Phase` enumeration, declared in
the absent header thread_nexus.hpp; the three phases are Managed, Unmanaged
and Waiting. -/
inductive Phase where
  | eManaged
  | eUnmanaged
  | eWaiting
  deriving DecidableEq, Repr

/-- Modelled from the spec: the integer value of each phase (`static_cast<int>`
in `yielding_p`).  The header is absent; the values are such that exactly the
phases Unmanaged and Waiting carry the yielding bit, as the spec says of
`is_yielding`. -/
def Phase.toInt : Phase → Nat
  | .eManaged => 0x01
  | .eUnmanaged => 0x81
  | .eWaiting => 0x82

/-- Modelled from the spec: the bit mask `ThreadNexus::cYieldingPhase` of the
absent header. -/
def cYieldingPhase : Nat := 0x80

/-- The enumeration `memory::ManagedThread::Kind`; its three enumerators are
the cases of the switch in `after_fork_child`. -/
inductive Kind where
  | eThread
  | eFiber
  | eSystem
  deriving DecidableEq, Repr

/-- A value of type `Thread*` as `after_fork_child` distinguishes them: the
null pointer, the nil object (`nil_p()`), or the address of a Thread. -/
inductive ThreadPtr where
  | null
  | nil
  | obj (p : Ptr)
  deriving DecidableEq, Repr

/-- Modelled from the spec: the status of a Fiber; the source names only
`Fiber::eDead`, every other status is `eAlive` here. -/
inductive FiberStatus where
  | eAlive
  | eDead
  deriving DecidableEq, Repr

/-- The part of a `VM` object (a `memory::ManagedThread`) that the nexus reads
or writes.  The flags `parked`, `zombie`, `canceled` and `discarded` record the
calls `reset_parked()`, `set_zombie()`, `set_canceled()` and `VM::discard`. -/
structure VM where
  thread_id : Nat
  kind : Kind
  thread_phase : Phase
  thread : ThreadPtr
  fiber : Option Ptr
  parked : Bool
  zombie : Bool
  canceled : Bool
  discarded : Bool
  deriving DecidableEq, Repr

/-- The part of a language-level `Thread` object used by fork recovery. -/
structure Thread where
  fiber : Ptr
  current_fiber : Ptr
  stopped : Bool
  deriving DecidableEq, Repr

/-- The part of a `Fiber` object used by fork recovery. -/
structure Fiber where
  status : FiberStatus
  deriving DecidableEq, Repr

/-- The fatal conditions the nexus raises, one constructor per raise site:
`Exception::raise_assertion_error` (three sites, each with the thread id put in
the message), `Exception::raise_deadlock_error` (two sites, with the arguments
of `detect_deadlock`), and `rubinius::bug`. -/
inductive Error where
  | halting_mutex_locked (id : Nat)
  | waiting_while_holding_lock (id : Nat)
  | unlock_by_wrong_thread (id : Nat)
  | thread_will_not_yield (nanoseconds : Nat) (vm : Ptr)
  | unable_to_lock (nanoseconds : Nat)
  | exceeded_maximum_threads
  deriving DecidableEq, Repr

/-- The three classes of fatal condition. -/
inductive ErrorClass where
  | assertion
  | deadlock
  | bug
  deriving DecidableEq, Repr

/-- The class of a fatal condition, by the function that raises it. -/
def Error.cls : Error → ErrorClass
  | .halting_mutex_locked _ => .assertion
  | .waiting_while_holding_lock _ => .assertion
  | .unlock_by_wrong_thread _ => .assertion
  | .thread_will_not_yield _ _ => .deadlock
  | .unable_to_lock _ => .deadlock
  | .exceeded_maximum_threads => .bug

/-- The process state seen by the nexus: the members of `ThreadNexus`
(`halt_`, `lock_`, `halting_mutex_`, `thread_ids_`, `threads_`), the
`static int i` of `wait()`, the heap of VM, Thread and Fiber objects, and the root VM
of the environment.  An entry of `threads_` is recorded by what its `as_vm()`
yields: `none` when that is the null pointer. -/
structure World where
  halt_ : Nat
  lock_ : Nat
  halting_mutex_ : Bool
  thread_ids_ : Nat
  threads_ : List (Option Ptr)
  wait_i : Int
  vms : Ptr → VM
  thread_objs : Ptr → Thread
  fiber_objs : Ptr → Fiber
  root_vm : Option Ptr

/-- How a call ends: it returns a value, raises a fatal condition, waits on a
mutex held by someone else, or does something C++ leaves undefined (a signed
overflow, a read outside an array).  `post` is the state at that moment. -/
inductive Outcome (α : Type) where
  | returns (val : α) (post : World)
  | raises (err : Error) (post : World)
  | blocks (post : World)
  | undefined (post : World)

/-- The state at the end of a call. -/
def Outcome.post {α : Type} : Outcome α → World
  | .returns _ w => w
  | .raises _ w => w
  | .blocks w => w
  | .undefined w => w

/-- Writing one object of a heap. -/
def store {β : Type} (heap : Ptr → β) (p : Ptr) (v : β) : Ptr → β :=
  fun q => if q = p then v else heap q

/-- The call `vm->set_thread_phase(phase)`. -/
def set_thread_phase (w : World) (vm : Ptr) (phase : Phase) : World :=
  { w with vms := store w.vms vm { w.vms vm with thread_phase := phase } }

/-- The call `vm->thread_id()`. -/
def thread_id (w : World) (vm : Ptr) : Nat := (w.vms vm).thread_id

/-- The method `ThreadNexus::can_stop_p`. -/
def can_stop_p (w : World) (vm : Ptr) : Bool :=
  w.lock_ != thread_id w vm

/-- The method `ThreadNexus::lock_owned_p`. -/
def lock_owned_p (w : World) (vm : Ptr) : Bool :=
  w.lock_ == thread_id w vm

/-- The method `ThreadNexus::set_halt`: `halting_mutex_.try_lock()` fails when
the mutex is held. -/
def set_halt (w : World) (vm : Ptr) : Outcome Unit :=
  if w.halting_mutex_ then
    .raises (.halting_mutex_locked (thread_id w vm)) w
  else
    .returns () { w with halting_mutex_ := true, halt_ := thread_id w vm }

/-- The method `ThreadNexus::unmanaged_phase`. -/
def unmanaged_phase (w : World) (vm : Ptr) : Outcome Unit :=
  .returns () (set_thread_phase w vm .eUnmanaged)

/-- The method `ThreadNexus::waiting_phase`. -/
def waiting_phase (w : World) (vm : Ptr) : Outcome Unit :=
  if !can_stop_p w vm then
    .raises (.waiting_while_holding_lock (thread_id w vm)) w
  else
    .returns () (set_thread_phase w vm .eWaiting)

/-- The method `ThreadNexus::set_managed`. -/
def set_managed (w : World) (vm : Ptr) : World :=
  set_thread_phase w vm .eManaged

/-- The method `ThreadNexus::unlock`; `notify_all` changes nothing in the
state. -/
def unlock (w : World) (vm : Ptr) : Outcome Unit :=
  if can_stop_p w vm then
    .raises (.unlock_by_wrong_thread (thread_id w vm)) w
  else
    .returns () { w with lock_ := 0 }

/-- The method `ThreadNexus::yielding_p`, on the VM object itself. -/
def yielding_p (vm : VM) : Bool :=
  (vm.thread_phase.toInt &&& cYieldingPhase) == cYieldingPhase

/-- The method `ThreadNexus::try_lock(VM*)`: a strong compare-and-exchange of
`lock_` from 0 to the thread id. -/
def try_lock (w : World) (vm : Ptr) : Outcome Bool :=
  if w.lock_ = 0 then
    .returns true { w with lock_ := thread_id w vm }
  else
    .returns false w

/-- Modelled from the spec: the overload `try_lock(STATE, VM*, process)` of the
absent header thread_nexus.hpp, which `try_managed_phase` calls.  It tries the
compare-and-exchange once; when the token was free the caller now holds it and
`process` runs, and the answer is whether the token was taken. -/
def try_lock_process (w : World) (vm : Ptr) (process : World → World) :
    Outcome Bool :=
  match try_lock w vm with
  | .returns true w1 => .returns true (process w1)
  | r => r

/-- The method `ThreadNexus::try_managed_phase`.  `halting_mutex_.lock()` on a
held mutex waits for its release: the call is blocked. -/
def try_managed_phase (w : World) (vm : Ptr) : Outcome Bool :=
  if w.halt_ ≠ 0 ∧ w.halt_ ≠ thread_id w vm then
    if w.halting_mutex_ then
      .blocks w
    else
      try_lock_process { w with halting_mutex_ := true } vm
        (fun w1 => set_thread_phase w1 vm .eManaged)
  else
    try_lock_process w vm (fun w1 => set_thread_phase w1 vm .eManaged)

/-- The method `ThreadNexus::new_vm`.  `p` is the address `new VM` returns and
`init` the state the (absent) VM constructor gives a new object apart from its
id; the counter is a `uint32_t`, so the increment wraps.  The guard on
`threads_mutex_` is taken and released inside the call. -/
def new_vm (w : World) (p : Ptr) (init : VM) : Outcome Ptr :=
  let max_id := w.thread_ids_
  let id := (w.thread_ids_ + 1) % 2 ^ 32
  let w1 := { w with thread_ids_ := id }
  if id < max_id then
    .raises .exceeded_maximum_threads w1
  else
    .returns p
      { w1 with
        vms := store w1.vms p { init with thread_id := id }
        threads_ := w1.threads_ ++ [some p] }

/-- The method `ThreadNexus::delete_vm`: `std::list::remove` erases every
entry equal to `vm`. -/
def delete_vm (w : World) (vm : Ptr) : Outcome Unit :=
  .returns () { w with threads_ := w.threads_.filter (fun e => e != some vm) }

/-- The call `vm->reset_parked()`. -/
def reset_parked (w : World) (vm : Ptr) : World :=
  { w with vms := store w.vms vm { w.vms vm with parked := false } }

/-- The call `vm->set_zombie()`. -/
def set_zombie (w : World) (vm : Ptr) : World :=
  { w with vms := store w.vms vm { w.vms vm with zombie := true } }

/-- The call `vm->set_canceled()`. -/
def set_canceled (w : World) (vm : Ptr) : World :=
  { w with vms := store w.vms vm { w.vms vm with canceled := true } }

/-- The call `VM::discard(state, vm)`. -/
def discard (w : World) (vm : Ptr) : World :=
  { w with vms := store w.vms vm { w.vms vm with discarded := true } }

/-- The call `thread->stopped()`. -/
def thread_stopped (w : World) (t : Ptr) : World :=
  { w with
    thread_objs := store w.thread_objs t { w.thread_objs t with stopped := true } }

/-- The call `thread->current_fiber(state, thread->fiber())`. -/
def thread_relink (w : World) (t : Ptr) : World :=
  { w with
    thread_objs := store w.thread_objs t
      { w.thread_objs t with current_fiber := (w.thread_objs t).fiber } }

/-- The call `fiber->status(Fiber::eDead)`. -/
def fiber_dead (w : World) (f : Ptr) : World :=
  { w with
    fiber_objs := store w.fiber_objs f { w.fiber_objs f with status := .eDead } }

/-- The body of the loop of `after_fork_child` for the entry just popped: `e`
is what `as_vm()` gave for it. -/
def fork_entry (current : Ptr) (w : World) (e : Option Ptr) : World :=
  match e with
  | none => w
  | some vm =>
    match (w.vms vm).kind with
    | .eThread =>
      match (w.vms vm).thread with
      | .obj t =>
        if vm = current then
          thread_relink w t
        else
          set_zombie (reset_parked (thread_stopped w t) vm) vm
      | _ => set_zombie (reset_parked w vm) vm
    | .eFiber =>
      match (w.vms vm).fiber with
      | some f => set_zombie (set_canceled (fiber_dead w f) vm) vm
      | none => w
    | .eSystem => discard w vm

/-- The loop `while(!threads_.empty())` of `after_fork_child`; one unit of fuel
per iteration. -/
def fork_loop (current : Ptr) : Nat → World → Option World
  | 0, w => if w.threads_ = [] then some w else none
  | fuel + 1, w =>
    match w.threads_.getLast? with
    | none => some w
    | some e =>
      fork_loop current fuel
        (fork_entry current { w with threads_ := w.threads_.dropLast } e)

/-- The method `ThreadNexus::after_fork_child`; `current` is `state->vm()`.
The registry mutex it constructs anew is not part of the state. -/
def after_fork_child (fuel : Nat) (w : World) (current : Ptr) : Option World :=
  match fork_loop current fuel w with
  | none => none
  | some w1 =>
    some { w1 with threads_ := w1.threads_ ++ [some current], root_vm := some current }

/-- The table `delay` of `ThreadNexus::wait`. -/
def delay : List Nat :=
  [133, 464, 254, 306, 549, 287, 358, 638, 496, 81,
   472, 288, 131, 31, 435, 258, 221, 73, 537, 854]

/-- The number of entries of the table, `sizeof(delay) / sizeof(int)`, a
`static int`. -/
def modulo : Int := delay.length

/-- The largest value of a C++ `int` (32 bits). -/
def INT_MAX : Int := 2147483647

/-- The method `ThreadNexus::wait`: `delay[i++ % modulo]` on the `static int i`,
with the remainder of C++ (which takes the sign of `i`).  The answer is `none`
where C++ leaves the expression undefined: the increment overflows when `i` is
`INT_MAX`, and the read is outside the table when the remainder is negative.
Otherwise it is the table entry and the state with the counter incremented;
sleeping changes nothing in the state. -/
def wait (w : World) : Option (Nat × World) :=
  if w.wait_i < INT_MAX ∧ 0 ≤ Int.tmod w.wait_i modulo then
    some (delay.getD (Int.tmod w.wait_i modulo).toNat 0,
      { w with wait_i := w.wait_i + 1 })
  else
    none

/-- The method `ThreadNexus::detect_deadlock(STATE, uint64_t, VM*)`;
`cLockLimit` is the constant of the absent header. -/
def detect_deadlock_vm (cLockLimit : Nat) (w : World) (nanoseconds : Nat)
    (vm : Ptr) : Outcome Unit :=
  if nanoseconds > cLockLimit then
    .raises (.thread_will_not_yield nanoseconds vm) w
  else
    .returns () w

/-- The method `ThreadNexus::detect_deadlock(STATE, uint64_t)`. -/
def detect_deadlock (cLockLimit : Nat) (w : World) (nanoseconds : Nat) :
    Outcome Unit :=
  if nanoseconds > cLockLimit then
    .raises (.unable_to_lock nanoseconds) w
  else
    .returns () w

/-- The loop `while(true)` of `wait_for_all` for one thread `other_vm`, from
the state `w` with `limit` accumulated so far.  `env k` is what the other
threads do to the state before the `k`-th read of a phase.  The value returned
is the next read number and the accumulated `limit` (a `uint64_t`). -/
def wait_for_all_spin (cLockLimit : Nat) (env : Nat → World → World)
    (other_vm : Ptr) : Nat → Nat → World → Nat → Option (Outcome (Nat × Nat))
  | 0, _, _, _ => none
  | fuel + 1, k, w, limit =>
    let w1 := env k w
    if yielding_p (w1.vms other_vm) then
      some (.returns (k + 1, limit) w1)
    else
      match wait w1 with
      | none => some (.undefined w1)
      | some (ns, w2) =>
        let limit1 := (limit + ns) % 2 ^ 64
        match detect_deadlock_vm cLockLimit w2 limit1 other_vm with
        | .returns _ w3 =>
          wait_for_all_spin cLockLimit env other_vm fuel (k + 1) w3 limit1
        | .raises err w3 => some (.raises err w3)
        | .blocks w3 => some (.blocks w3)
        | .undefined w3 => some (.undefined w3)

/-- The loop `for` of `wait_for_all` over the registry entries still to visit;
each inner loop gets `fuel` iterations. -/
def wait_for_all_loop (cLockLimit : Nat) (env : Nat → World → World) (vm : Ptr)
    (fuel : Nat) : List (Option Ptr) → Nat → World → Nat → Option (Outcome (Nat × Nat))
  | [], k, w, limit => some (.returns (k, limit) w)
  | none :: rest, k, w, limit => wait_for_all_loop cLockLimit env vm fuel rest k w limit
  | some other_vm :: rest, k, w, limit =>
    if vm = other_vm then
      wait_for_all_loop cLockLimit env vm fuel rest k w limit
    else
      let w1 := env k w
      if yielding_p (w1.vms other_vm) then
        wait_for_all_loop cLockLimit env vm fuel rest (k + 1) w1 limit
      else
        match wait_for_all_spin cLockLimit env other_vm fuel (k + 1) w1 limit with
        | some (.returns (k1, limit1) w2) =>
          wait_for_all_loop cLockLimit env vm fuel rest k1 w2 limit1
        | r => r

/-- The method `ThreadNexus::wait_for_all`.  The registry is walked as it is on
entry (the guard on `threads_mutex_` is held throughout). -/
def wait_for_all (cLockLimit : Nat) (env : Nat → World → World) (fuel : Nat)
    (w : World) (vm : Ptr) : Option (Outcome Unit) :=
  match wait_for_all_loop cLockLimit env vm fuel w.threads_ 0 (set_managed w vm) 0 with
  | none => none
  | some (.returns _ w1) => some (.returns () w1)
  | some (.raises err w1) => some (.raises err w1)
  | some (.blocks w1) => some (.blocks w1)
  | some (.undefined w1) => some (.undefined w1)

/-- The loop of `ThreadNexus::try_lock_wait`, from the state `w` with `limit`
accumulated so far.  `env k` is what the other threads do before the `k`-th
attempt; `collect_requested_p` is the poll of the collector and `yield` the
method of the absent header. -/
def try_lock_wait_loop (cLockLimit : Nat) (collect_requested_p : World → Bool)
    (yield : World → Ptr → Outcome Unit) (env : Nat → World → World) (vm : Ptr) :
    Nat → Nat → World → Nat → Option (Outcome Bool)
  | 0, _, _, _ => none
  | fuel + 1, k, w, limit =>
    match try_lock (env k w) vm with
    | .returns true w1 => some (.returns true w1)
    | .returns false w1 =>
      match (if collect_requested_p w1 then yield w1 vm else .returns () w1) with
      | .returns _ w2 =>
        match wait w2 with
        | none => some (.undefined w2)
        | some (ns, w3) =>
          let limit1 := (limit + ns) % 2 ^ 64
          match detect_deadlock cLockLimit w3 limit1 with
          | .returns _ w4 =>
            try_lock_wait_loop cLockLimit collect_requested_p yield env vm fuel (k + 1) w4
              limit1
          | .raises err w4 => some (.raises err w4)
          | .blocks w4 => some (.blocks w4)
          | .undefined w4 => some (.undefined w4)
      | .raises err w2 => some (.raises err w2)
      | .blocks w2 => some (.blocks w2)
      | .undefined w2 => some (.undefined w2)
    | .raises err w1 => some (.raises err w1)
    | .blocks w1 => some (.blocks w1)
    | .undefined w1 => some (.undefined w1)

/-- The method `ThreadNexus::try_lock_wait`. -/
def try_lock_wait (cLockLimit : Nat) (collect_requested_p : World → Bool)
    (yield : World → Ptr → Outcome Unit) (env : Nat → World → World) (fuel : Nat)
    (w : World) (vm : Ptr) : Option (Outcome Bool) :=
  try_lock_wait_loop cLockLimit collect_requested_p yield env vm fuel 0 w 0

/-- The four calls a thread makes in the lock-token protocol. -/
inductive Op where
  | try_lock
  | unlock
  | waiting_phase
  | unmanaged_phase
  deriving DecidableEq, Repr

/-- The state after thread `vm` makes the call `op` in state `w` (for a call
that raises, the state at the raise). -/
def Op.run (op : Op) (w : World) (vm : Ptr) : World :=
  match op with
  | .try_lock => (Rubinius.try_lock w vm).post
  | .unlock => (Rubinius.unlock w vm).post
  | .waiting_phase => (Rubinius.waiting_phase w vm).post
  | .unmanaged_phase => (Rubinius.unmanaged_phase w vm).post

/-- The states reachable from `w0` by atomic calls of the threads in
`threads`, in any order. -/
inductive Reachable (threads : List Ptr) (w0 : World) : World → Prop where
  | init : Reachable threads w0 w0
  | step (w : World) (vm : Ptr) (op : Op) :
      Reachable threads w0 w → vm ∈ threads → Reachable threads w0 (op.run w vm)

/-- A call that changes the registry: `new_vm` (with the address and initial
object the allocation gives) or `delete_vm`. -/
inductive Call where
  | new_vm (p : Ptr) (init : VM)
  | delete_vm (vm : Ptr)

/-- The number of `new_vm` calls in a sequence. -/
def count_new : List Call → Nat
  | [] => 0
  | .new_vm _ _ :: rest => count_new rest + 1
  | .delete_vm _ :: rest => count_new rest

/-- Running a sequence of registry calls in order, up to the first that does
not return.  The value is the list of the ids of the VMs that the `new_vm`
calls returned, in call order. -/
def run_calls : World → List Call → Outcome (List Nat)
  | w, [] => .returns [] w
  | w, .new_vm p init :: rest =>
    match new_vm w p init with
    | .returns q w1 =>
      match run_calls w1 rest with
      | .returns ids w2 => .returns (thread_id w1 q :: ids) w2
      | r => r
    | .raises err w1 => .raises err w1
    | .blocks w1 => .blocks w1
    | .undefined w1 => .undefined w1
  | w, .delete_vm vm :: rest =>
    match delete_vm w vm with
    | .returns _ w1 => run_calls w1 rest
    | .raises err w1 => .raises err w1
    | .blocks w1 => .blocks w1
    | .undefined w1 => .undefined w1

/-- The allocator hands out live addresses only once: every `new_vm` of the
sequence gets an address that is not in the registry at that moment. -/
def fresh_addresses : World → List Call → Bool
  | _, [] => true
  | w, .new_vm p init :: rest =>
    decide (some p ∉ w.threads_) && fresh_addresses (new_vm w p init).post rest
  | w, .delete_vm vm :: rest => fresh_addresses (delete_vm w vm).post rest

/-- The ids of the VM handles in the registry, in registry order. -/
def registry_ids (w : World) : List Nat :=
  w.threads_.filterMap (fun e => e.map (thread_id w))

/-- The invariant of the registry under `new_vm` and `delete_vm`: every entry
is a VM handle whose id lies between 1 and the counter, and the ids of the
entries are pairwise distinct. -/
def registry_inv (w : World) : Prop :=
  (∀ e ∈ w.threads_, ∃ p, e = some p ∧ 1 ≤ thread_id w p ∧ thread_id w p ≤ w.thread_ids_) ∧
  (registry_ids w).Nodup

/-- What the loop of `after_fork_child` never undoes between a state `w` and a
later state `w1`: the kind and the Thread and Fiber handles of a VM and the
root fiber of a Thread stay as they are, and a flag once set by the loop (a
VM zombie, canceled, discarded or with its parked state reset, a Thread stopped
or re-linked to its root fiber, a Fiber dead) stays set. -/
structure Frame (w w1 : World) : Prop where
  kind : ∀ v, (w1.vms v).kind = (w.vms v).kind
  thread : ∀ v, (w1.vms v).thread = (w.vms v).thread
  fiber : ∀ v, (w1.vms v).fiber = (w.vms v).fiber
  zombie : ∀ v, (w.vms v).zombie = true → (w1.vms v).zombie = true
  parked : ∀ v, (w.vms v).parked = false → (w1.vms v).parked = false
  canceled : ∀ v, (w.vms v).canceled = true → (w1.vms v).canceled = true
  discarded : ∀ v, (w.vms v).discarded = true → (w1.vms v).discarded = true
  root_fiber : ∀ t, (w1.thread_objs t).fiber = (w.thread_objs t).fiber
  stopped : ∀ t, (w.thread_objs t).stopped = true → (w1.thread_objs t).stopped = true
  relinked : ∀ t, (w.thread_objs t).current_fiber = (w.thread_objs t).fiber →
    (w1.thread_objs t).current_fiber = (w1.thread_objs t).fiber
  dead : ∀ f, (w.fiber_objs f).status = .eDead → (w1.fiber_objs f).status = .eDead

/-- The registry entries handled one after another, the last entry of the
list first, as the loop of `after_fork_child` pops them. -/
def fork_entries (current : Ptr) (w : World) (entries : List (Option Ptr)) : World :=
  entries.foldr (fun e acc => fork_entry current acc e) w

/-- The registry of the example of fork recovery: the caller A at address 0
and a language thread B at address 1 (each with its own Thread object), a fiber
C at address 2 whose Fiber is at address 0, a system helper D at address 3. -/
def fork_demo : World :=
  { halt_ := 0, lock_ := 0, halting_mutex_ := false, thread_ids_ := 4,
    threads_ := [some 0, some 1, some 2, some 3], wait_i := 0,
    vms := fun p =>
      { thread_id := p + 1,
        kind := if p ≤ 1 then .eThread else if p = 2 then .eFiber else .eSystem,
        thread_phase := .eUnmanaged,
        thread := if p ≤ 1 then .obj p else .nil,
        fiber := if p = 2 then some 0 else none,
        parked := true, zombie := false, canceled := false, discarded := false },
    thread_objs := fun t => { fiber := t + 10, current_fiber := t + 20, stopped := false },
    fiber_objs := fun _ => { status := .eAlive }, root_vm := none }

/-- A registry on which the dispositions differ from the plain reading: the
caller at address 0 is a thread-kind VM without a Thread handle, the entry at
address 1 is a fiber-kind VM without a Fiber. -/
def fork_bare : World :=
  { halt_ := 0, lock_ := 0, halting_mutex_ := false, thread_ids_ := 2,
    threads_ := [some 0, some 1], wait_i := 0,
    vms := fun p =>
      { thread_id := p + 1,
        kind := if p = 1 then .eFiber else .eThread,
        thread_phase := .eUnmanaged, thread := .null, fiber := none,
        parked := true, zombie := false, canceled := false, discarded := false },
    thread_objs := fun t => { fiber := t + 10, current_fiber := t + 20, stopped := false },
    fiber_objs := fun _ => { status := .eAlive }, root_vm := none }

/-- The other threads leave the state alone during the call. -/
def no_interference : Nat → World → World := fun _ w => w

/-- A VM object with the given id and every flag clear, for examples. -/
def demo_vm (id : Nat) : VM :=
  { thread_id := id, kind := .eThread, thread_phase := .eUnmanaged, thread := .null,
    fiber := none, parked := false, zombie := false, canceled := false,
    discarded := false }

/-- An example state: the VM at address `p` has id `p + 1`, the token holds
`lock`, the registry is `registry`, no halt is pending. -/
def demo_world (lock : Nat) (registry : List (Option Ptr)) : World :=
  { halt_ := 0, lock_ := lock, halting_mutex_ := false, thread_ids_ := 0,
    threads_ := registry, wait_i := 0, vms := fun p => demo_vm (p + 1),
    thread_objs := fun _ => { fiber := 0, current_fiber := 0, stopped := false },
    fiber_objs := fun _ => { status := .eAlive }, root_vm := none }

/-- An example state for the waits: the token is held by id 2, the registry
holds the VMs at addresses 0, 1 and 2 and an entry that is no VM, and the VM at
address 1 is in the managed phase. -/
def spin_demo : World :=
  { halt_ := 0, lock_ := 2, halting_mutex_ := false, thread_ids_ := 3,
    threads_ := [some 0, none, some 1, some 2], wait_i := 0,
    vms := fun p =>
      if p = 1 then { demo_vm 2 with thread_phase := .eManaged } else demo_vm (p + 1),
    thread_objs := fun _ => { fiber := 0, current_fiber := 0, stopped := false },
    fiber_objs := fun _ => { status := .eAlive }, root_vm := none }

/-! ## The lock token: `unlock`, `waiting_phase`, `try_lock` -/

theorem can_stop_p_eq_true (w : World) (vm : Ptr) :
    can_stop_p w vm = true ↔ w.lock_ ≠ thread_id w vm := by
  simp [can_stop_p]

theorem can_stop_p_eq_false (w : World) (vm : Ptr) :
    can_stop_p w vm = false ↔ w.lock_ = thread_id w vm := by
  simp [can_stop_p]

theorem thread_id_set_thread_phase (w : World) (vm a : Ptr) (ph : Phase) :
    thread_id (set_thread_phase w vm ph) a = thread_id w a := by
  unfold thread_id set_thread_phase store
  by_cases h : a = vm
  · subst h; simp
  · simp [h]

/-- Claim C2.  `unlock` raises exactly when the caller is not the holder of the
token; the condition raised is an assertion error and the state, the token
included, is as before.  When the caller is the holder it returns with the
token 0.  For a thread with a non-zero id, unlocking again right after a
successful unlock raises. -/
theorem unlock_raises_iff_not_holder (w : World) (vm : Ptr) :
    ((∃ e p, unlock w vm = .raises e p) ↔ w.lock_ ≠ thread_id w vm) ∧
    (∀ e p, unlock w vm = .raises e p →
      e = .unlock_by_wrong_thread (thread_id w vm) ∧ e.cls = .assertion ∧ p = w) ∧
    (w.lock_ = thread_id w vm → unlock w vm = .returns () { w with lock_ := 0 }) ∧
    (w.lock_ = thread_id w vm → thread_id w vm ≠ 0 →
      unlock (unlock w vm).post vm =
        .raises (.unlock_by_wrong_thread (thread_id w vm)) { w with lock_ := 0 }) := by
  by_cases h : w.lock_ = thread_id w vm
  · have hc : can_stop_p w vm = false := (can_stop_p_eq_false w vm).2 h
    have hu : unlock w vm = .returns () { w with lock_ := 0 } := by
      simp [unlock, hc]
    refine ⟨?_, ?_, fun _ => hu, ?_⟩
    · constructor
      · rintro ⟨e, p, he⟩
        rw [hu] at he
        cases he
      · intro hn
        exact absurd h hn
    · intro e p he
      rw [hu] at he
      cases he
    · intro _ hz
      rw [hu]
      have hc2 : can_stop_p { w with lock_ := 0 } vm = true := by
        rw [can_stop_p_eq_true]
        exact fun h0 => hz h0.symm
      simp only [Outcome.post, unlock, hc2, if_true]
      rfl
  · have hc : can_stop_p w vm = true := (can_stop_p_eq_true w vm).2 h
    have hu : unlock w vm = .raises (.unlock_by_wrong_thread (thread_id w vm)) w := by
      simp [unlock, hc]
    refine ⟨?_, ?_, fun h1 => absurd h1 h, fun h1 => absurd h1 h⟩
    · constructor
      · intro _
        exact h
      · intro _
        exact ⟨_, _, hu⟩
    · intro e p he
      rw [hu] at he
      cases he
      exact ⟨rfl, rfl, rfl⟩

/-- Witness for C2: the thread at address 1 (id 2) holds the token; its unlock
returns with the token clear and its second unlock raises. -/
theorem unlock_raises_iff_not_holder_witness :
    unlock (demo_world 2 []) 1 = .returns () { demo_world 2 [] with lock_ := 0 } ∧
    unlock (unlock (demo_world 2 []) 1).post 1 =
      .raises (.unlock_by_wrong_thread 2) { demo_world 2 [] with lock_ := 0 } ∧
    (∃ e p, unlock (demo_world 2 []) 0 = .raises e p) :=
  ⟨(unlock_raises_iff_not_holder (demo_world 2 []) 1).2.2.1 (by decide),
   (unlock_raises_iff_not_holder (demo_world 2 []) 1).2.2.2 (by decide) (by decide),
   (unlock_raises_iff_not_holder (demo_world 2 []) 0).1.2 (by decide)⟩

/-- Claim C3.  `waiting_phase` raises exactly when the caller holds the token;
the condition is an assertion error and the state, the phase of the caller
included, is as before.  Otherwise it returns, the phase of the caller is
Waiting and the token is unchanged. -/
theorem waiting_phase_raises_iff_holder (w : World) (vm : Ptr) :
    ((∃ e p, waiting_phase w vm = .raises e p) ↔ w.lock_ = thread_id w vm) ∧
    (∀ e p, waiting_phase w vm = .raises e p →
      e = .waiting_while_holding_lock (thread_id w vm) ∧ e.cls = .assertion ∧ p = w ∧
      (p.vms vm).thread_phase = (w.vms vm).thread_phase) ∧
    (w.lock_ ≠ thread_id w vm →
      ∃ p, waiting_phase w vm = .returns () p ∧
        (p.vms vm).thread_phase = .eWaiting ∧ p.lock_ = w.lock_) := by
  by_cases h : w.lock_ = thread_id w vm
  · have hc : can_stop_p w vm = false := (can_stop_p_eq_false w vm).2 h
    have hu : waiting_phase w vm =
        .raises (.waiting_while_holding_lock (thread_id w vm)) w := by
      simp [waiting_phase, hc]
    refine ⟨⟨fun _ => h, fun _ => ⟨_, _, hu⟩⟩, ?_, fun hn => absurd h hn⟩
    intro e p he
    rw [hu] at he
    cases he
    exact ⟨rfl, rfl, rfl, rfl⟩
  · have hc : can_stop_p w vm = true := (can_stop_p_eq_true w vm).2 h
    have hu : waiting_phase w vm = .returns () (set_thread_phase w vm .eWaiting) := by
      simp [waiting_phase, hc]
    refine ⟨⟨?_, fun h1 => absurd h1 h⟩, ?_, fun _ => ⟨_, hu, ?_, rfl⟩⟩
    · rintro ⟨e, p, he⟩
      rw [hu] at he
      cases he
    · intro e p he
      rw [hu] at he
      cases he
    · simp [set_thread_phase, store]

/-- Witness for C3: with the token held by id 2, the thread with id 1 enters
Waiting and the thread with id 2 cannot. -/
theorem waiting_phase_raises_iff_holder_witness :
    (∃ p, waiting_phase (demo_world 2 []) 0 = .returns () p ∧
      (p.vms 0).thread_phase = .eWaiting ∧ p.lock_ = (demo_world 2 []).lock_) ∧
    (∃ e p, waiting_phase (demo_world 2 []) 1 = .raises e p) :=
  ⟨(waiting_phase_raises_iff_holder (demo_world 2 []) 0).2.2 (by decide),
   (waiting_phase_raises_iff_holder (demo_world 2 []) 1).1.2 (by decide)⟩

/-- Claim C4.  `try_lock` is a compare-and-swap from 0: it answers true exactly
when the token was 0, and then the token is the id of the caller; when the
token was not 0 it answers false and the state is as before.  So while a thread
`a` with a non-zero id holds the token, `try_lock` by any thread `b` (`a`
itself included) answers false and leaves the token with `a`. -/
theorem try_lock_compare_and_swap (w : World) (vm : Ptr) :
    ((∃ p, try_lock w vm = .returns true p) ↔ w.lock_ = 0) ∧
    (w.lock_ = 0 →
      try_lock w vm = .returns true { w with lock_ := thread_id w vm }) ∧
    (w.lock_ ≠ 0 → try_lock w vm = .returns false w) ∧
    (∀ a : Ptr, thread_id w a ≠ 0 → lock_owned_p w a = true →
      try_lock w vm = .returns false w ∧
      lock_owned_p (try_lock w vm).post a = true) := by
  by_cases h : w.lock_ = 0
  · have hu : try_lock w vm = .returns true { w with lock_ := thread_id w vm } := by
      simp [try_lock, h]
    refine ⟨⟨fun _ => h, fun _ => ⟨_, hu⟩⟩, fun _ => hu, fun hn => absurd h hn, ?_⟩
    intro a ha hown
    simp only [lock_owned_p, beq_iff_eq] at hown
    exact absurd (hown ▸ h) ha
  · have hu : try_lock w vm = .returns false w := by
      simp [try_lock, h]
    refine ⟨⟨?_, fun h1 => absurd h1 h⟩, fun h1 => absurd h1 h, fun _ => hu, ?_⟩
    · rintro ⟨p, hp⟩
      rw [hu] at hp
      cases hp
    · intro a _ hown
      refine ⟨hu, ?_⟩
      rw [hu]
      exact hown

/-- Witness for C4: on a free token the thread with id 1 takes it; while id 2
holds it, neither the thread with id 1 nor the holder itself gets it. -/
theorem try_lock_compare_and_swap_witness :
    try_lock (demo_world 0 []) 0 =
      .returns true { demo_world 0 [] with lock_ := thread_id (demo_world 0 []) 0 } ∧
    try_lock (demo_world 2 []) 0 = .returns false (demo_world 2 []) ∧
    (try_lock (demo_world 2 []) 1 = .returns false (demo_world 2 []) ∧
      lock_owned_p (try_lock (demo_world 2 []) 1).post 1 = true) :=
  ⟨(try_lock_compare_and_swap (demo_world 0 []) 0).2.1 (by decide),
   (try_lock_compare_and_swap (demo_world 2 []) 0).2.2.1 (by decide),
   (try_lock_compare_and_swap (demo_world 2 []) 1).2.2.2 1 (by decide) (by decide)⟩

/-! ## Exclusivity of the lock token over all interleavings -/

theorem thread_id_op_run (op : Op) (w : World) (vm a : Ptr) :
    thread_id (op.run w vm) a = thread_id w a := by
  cases op
  · by_cases h : w.lock_ = 0 <;> simp [Op.run, try_lock, h, Outcome.post, thread_id]
  · cases hc : can_stop_p w vm <;> simp [Op.run, unlock, hc, Outcome.post, thread_id]
  · cases hc : can_stop_p w vm
    · simp [Op.run, waiting_phase, hc, Outcome.post]
    · simp only [Op.run, waiting_phase, hc, Outcome.post]
      exact thread_id_set_thread_phase w vm a .eWaiting
  · simp only [Op.run, unmanaged_phase, Outcome.post]
    exact thread_id_set_thread_phase w vm a .eUnmanaged

theorem thread_id_reachable (threads : List Ptr) (w0 w : World)
    (hr : Reachable threads w0 w) (a : Ptr) : thread_id w a = thread_id w0 a := by
  induction hr with
  | init => rfl
  | step w1 vm op _ _ ih => rw [thread_id_op_run, ih]

/-- A call changes a non-zero token only if it is an `unlock` by the thread
whose id the token holds, and it sets the token to 0. -/
theorem lock_change_is_unlock (op : Op) (w : World) (vm : Ptr)
    (hne : w.lock_ ≠ 0) (hch : (op.run w vm).lock_ ≠ w.lock_) :
    op = .unlock ∧ thread_id w vm = w.lock_ ∧ (op.run w vm).lock_ = 0 ∧
      unlock w vm = .returns () (op.run w vm) := by
  cases op
  · exact absurd (by simp [Op.run, try_lock, hne, Outcome.post]) hch
  · cases hc : can_stop_p w vm
    · have h := (can_stop_p_eq_false w vm).1 hc
      simp [Op.run, unlock, hc, Outcome.post, h]
    · exact absurd (by simp [Op.run, unlock, hc, Outcome.post]) hch
  · cases hc : can_stop_p w vm
    · exact absurd (by simp [Op.run, waiting_phase, hc, Outcome.post]) hch
    · exact absurd (by simp [Op.run, waiting_phase, hc, Outcome.post, set_thread_phase]) hch
  · exact absurd (by simp [Op.run, unmanaged_phase, Outcome.post, set_thread_phase]) hch

/-- The token of a reachable state is 0 or the id of one of the threads. -/
theorem lock_reachable (threads : List Ptr) (w0 w : World) (h0 : w0.lock_ = 0)
    (hr : Reachable threads w0 w) :
    w.lock_ = 0 ∨ ∃ a ∈ threads, thread_id w a = w.lock_ := by
  induction hr with
  | init => exact Or.inl h0
  | step w1 vm op _ hvm ih =>
    by_cases hsame : (op.run w1 vm).lock_ = w1.lock_
    · by_cases hz : w1.lock_ = 0
      · exact Or.inl (hsame.trans hz)
      · rcases ih with h | ⟨a, ha, hid⟩
        · exact absurd h hz
        · exact Or.inr ⟨a, ha, by rw [thread_id_op_run, hsame, hid]⟩
    · by_cases hz : w1.lock_ = 0
      · cases op
        · refine Or.inr ⟨vm, hvm, ?_⟩
          rw [thread_id_op_run]
          simp [Op.run, try_lock, hz, Outcome.post]
        · cases hc : can_stop_p w1 vm <;>
            exact Or.inl (by simp [Op.run, unlock, hc, Outcome.post, hz])
        · cases hc : can_stop_p w1 vm <;>
            exact Or.inl
              (by simp [Op.run, waiting_phase, hc, Outcome.post, hz, set_thread_phase])
        · exact Or.inl (by simp [Op.run, unmanaged_phase, Outcome.post, hz, set_thread_phase])
      · exact Or.inl (lock_change_is_unlock op w1 vm hz hsame).2.2.1

/-- Claim C1.  Threads with pairwise distinct non-zero ids make the calls
`try_lock`, `unlock`, `waiting_phase` and `unmanaged_phase` atomically in any
order, from a state whose token is 0.  In every reachable state at most one of
the threads owns the token (and a non-zero token is the id of one of them), and
every call that changes a non-zero token is a successful `unlock` by the thread
whose id the token holds, which sets it to 0. -/
theorem lock_token_exclusive (threads : List Ptr) (w0 : World)
    (h0 : w0.lock_ = 0)
    (hnz : ∀ a ∈ threads, thread_id w0 a ≠ 0)
    (hinj : ∀ a ∈ threads, ∀ b ∈ threads, thread_id w0 a = thread_id w0 b → a = b)
    (w : World) (hr : Reachable threads w0 w) :
    (∀ a ∈ threads, ∀ b ∈ threads,
      lock_owned_p w a = true → lock_owned_p w b = true → a = b) ∧
    (w.lock_ = 0 ∨ ∃ a ∈ threads, lock_owned_p w a = true) ∧
    (w.lock_ = 0 → ∀ a ∈ threads, lock_owned_p w a = false) ∧
    (∀ vm ∈ threads, ∀ op : Op, w.lock_ ≠ 0 → (op.run w vm).lock_ ≠ w.lock_ →
      op = .unlock ∧ lock_owned_p w vm = true ∧ (op.run w vm).lock_ = 0 ∧
        unlock w vm = .returns () (op.run w vm)) := by
  have hid : ∀ a, thread_id w a = thread_id w0 a := thread_id_reachable threads w0 w hr
  refine ⟨?_, ?_, ?_, ?_⟩
  · intro a ha b hb hoa hob
    simp only [lock_owned_p, beq_iff_eq] at hoa hob
    apply hinj a ha b hb
    rw [← hid a, ← hid b, ← hoa, ← hob]
  · rcases lock_reachable threads w0 w h0 hr with h | ⟨a, ha, h⟩
    · exact Or.inl h
    · exact Or.inr ⟨a, ha, by simp [lock_owned_p, h]⟩
  · intro hz a ha
    have := hnz a ha
    rw [← hid a] at this
    simp only [lock_owned_p, hz, beq_eq_false_iff_ne, ne_eq]
    exact fun h => this h.symm
  · intro vm _ op hne hch
    obtain ⟨h1, h2, h3, h4⟩ := lock_change_is_unlock op w vm hne hch
    exact ⟨h1, by simp [lock_owned_p, h2], h3, h4⟩

/-- Witness for C1: threads at addresses 0 and 1 (ids 1 and 2); after the
second one takes the token, only its `unlock` can change it. -/
theorem lock_token_exclusive_witness :
    (∀ a ∈ [0, 1], ∀ b ∈ [0, 1],
      lock_owned_p (Op.run .try_lock (demo_world 0 []) 1) a = true →
      lock_owned_p (Op.run .try_lock (demo_world 0 []) 1) b = true → a = b) ∧
    ((Op.run .try_lock (demo_world 0 []) 1).lock_ = 0 ∨
      ∃ a ∈ [0, 1], lock_owned_p (Op.run .try_lock (demo_world 0 []) 1) a = true) ∧
    ((Op.run .try_lock (demo_world 0 []) 1).lock_ = 0 → ∀ a ∈ [0, 1],
      lock_owned_p (Op.run .try_lock (demo_world 0 []) 1) a = false) ∧
    (∀ vm ∈ [0, 1], ∀ op : Op, (Op.run .try_lock (demo_world 0 []) 1).lock_ ≠ 0 →
      (op.run (Op.run .try_lock (demo_world 0 []) 1) vm).lock_ ≠
        (Op.run .try_lock (demo_world 0 []) 1).lock_ →
      op = .unlock ∧ lock_owned_p (Op.run .try_lock (demo_world 0 []) 1) vm = true ∧
        (op.run (Op.run .try_lock (demo_world 0 []) 1) vm).lock_ = 0 ∧
        unlock (Op.run .try_lock (demo_world 0 []) 1) vm =
          .returns () (op.run (Op.run .try_lock (demo_world 0 []) 1) vm)) :=
  lock_token_exclusive [0, 1] (demo_world 0 []) (by decide) (by decide) (by decide)
    (Op.run .try_lock (demo_world 0 []) 1)
    (Reachable.step (demo_world 0 []) 1 .try_lock Reachable.init (by decide))

/-! ## `try_managed_phase` and a pending halt -/

theorem try_lock_process_free (w : World) (vm : Ptr) (process : World → World)
    (h : w.lock_ = 0) :
    try_lock_process w vm process =
      .returns true (process { w with lock_ := thread_id w vm }) := by
  simp [try_lock_process, try_lock, h]

theorem try_lock_process_held (w : World) (vm : Ptr) (process : World → World)
    (h : w.lock_ ≠ 0) :
    try_lock_process w vm process = .returns false w := by
  simp [try_lock_process, try_lock, h]

/-- Claim C9, as stated, fails: after the thread with id 2 has called
`set_halt`, `try_managed_phase` by the thread with id 1 waits on the halting
mutex and returns no boolean. -/
theorem try_managed_phase_blocks_on_pending_halt :
    (set_halt (demo_world 0 []) 1).post.halt_ = 2 ∧
    (set_halt (demo_world 0 []) 1).post.halting_mutex_ = true ∧
    thread_id (set_halt (demo_world 0 []) 1).post 0 = 1 ∧
    try_managed_phase (set_halt (demo_world 0 []) 1).post 0 =
      .blocks (set_halt (demo_world 0 []) 1).post ∧
    ¬ ∃ b p, try_managed_phase (set_halt (demo_world 0 []) 1).post 0 = .returns b p := by
  have hb : try_managed_phase (set_halt (demo_world 0 []) 1).post 0 =
      .blocks (set_halt (demo_world 0 []) 1).post := by
    simp [try_managed_phase, set_halt, demo_world, Outcome.post, thread_id, demo_vm]
  refine ⟨by decide, by decide, by decide, hb, ?_⟩
  rintro ⟨b, p, h⟩
  rw [hb] at h
  cases h

/-- Claim C9, amended.  `try_managed_phase` waits on the halting mutex exactly
when a halt is pending that another thread owns and the halting mutex is held,
and then the state is as before.  In every other state it returns a boolean
at once: true, with the phase of the caller Managed and the token its id, when
the token was free; false, with the phase of the caller and the token as
before, when the token was held. -/
theorem try_managed_phase_blocks_iff (w : World) (vm : Ptr) :
    ((∃ p, try_managed_phase w vm = .blocks p) ↔
      (w.halt_ ≠ 0 ∧ w.halt_ ≠ thread_id w vm ∧ w.halting_mutex_ = true)) ∧
    (∀ p, try_managed_phase w vm = .blocks p → p = w) ∧
    (¬ (w.halt_ ≠ 0 ∧ w.halt_ ≠ thread_id w vm ∧ w.halting_mutex_ = true) →
      w.lock_ = 0 →
      ∃ p, try_managed_phase w vm = .returns true p ∧
        (p.vms vm).thread_phase = .eManaged ∧ p.lock_ = thread_id w vm ∧
        lock_owned_p p vm = true) ∧
    (¬ (w.halt_ ≠ 0 ∧ w.halt_ ≠ thread_id w vm ∧ w.halting_mutex_ = true) →
      w.lock_ ≠ 0 →
      ∃ p, try_managed_phase w vm = .returns false p ∧
        (p.vms vm).thread_phase = (w.vms vm).thread_phase ∧ p.lock_ = w.lock_) := by
  by_cases hh : w.halt_ ≠ 0 ∧ w.halt_ ≠ thread_id w vm
  · cases hm : w.halting_mutex_
    · have hu : try_managed_phase w vm =
          try_lock_process { w with halting_mutex_ := true } vm
            (fun w1 => set_thread_phase w1 vm .eManaged) := by
        simp [try_managed_phase, hh, hm]
      refine ⟨⟨?_, fun h => by simp at h⟩, ?_, ?_, ?_⟩
      · rintro ⟨p, hp⟩
        rw [hu] at hp
        by_cases hl : w.lock_ = 0
        · rw [try_lock_process_free { w with halting_mutex_ := true } vm _ hl] at hp
          cases hp
        · rw [try_lock_process_held { w with halting_mutex_ := true } vm _ hl] at hp
          cases hp
      · intro p hp
        rw [hu] at hp
        by_cases hl : w.lock_ = 0
        · rw [try_lock_process_free { w with halting_mutex_ := true } vm _ hl] at hp
          cases hp
        · rw [try_lock_process_held { w with halting_mutex_ := true } vm _ hl] at hp
          cases hp
      · intro _ hl
        rw [hu, try_lock_process_free { w with halting_mutex_ := true } vm _ hl]
        refine ⟨_, rfl, ?_, ?_, ?_⟩
        · simp [set_thread_phase, store]
        · simp [set_thread_phase, thread_id]
        · simp [lock_owned_p, set_thread_phase, thread_id, store]
      · intro _ hl
        rw [hu, try_lock_process_held { w with halting_mutex_ := true } vm _ hl]
        exact ⟨_, rfl, rfl, rfl⟩
    · have hu : try_managed_phase w vm = .blocks w := by
        simp [try_managed_phase, hh, hm]
      refine ⟨⟨fun _ => ⟨hh.1, hh.2, rfl⟩, fun _ => ⟨w, hu⟩⟩, ?_, ?_, ?_⟩
      · intro p hp
        rw [hu] at hp
        cases hp
        rfl
      · intro hn
        exact absurd ⟨hh.1, hh.2, rfl⟩ hn
      · intro hn
        exact absurd ⟨hh.1, hh.2, rfl⟩ hn
  · have hu : try_managed_phase w vm =
        try_lock_process w vm (fun w1 => set_thread_phase w1 vm .eManaged) := by
      simp only [try_managed_phase, hh, if_false]
    refine ⟨⟨?_, fun h => absurd ⟨h.1, h.2.1⟩ hh⟩, ?_, ?_, ?_⟩
    · rintro ⟨p, hp⟩
      rw [hu] at hp
      by_cases hl : w.lock_ = 0
      · rw [try_lock_process_free _ _ _ hl] at hp
        cases hp
      · rw [try_lock_process_held _ _ _ hl] at hp
        cases hp
    · intro p hp
      rw [hu] at hp
      by_cases hl : w.lock_ = 0
      · rw [try_lock_process_free _ _ _ hl] at hp
        cases hp
      · rw [try_lock_process_held _ _ _ hl] at hp
        cases hp
    · intro _ hl
      rw [hu, try_lock_process_free _ _ _ hl]
      refine ⟨_, rfl, ?_, ?_, ?_⟩
      · simp [set_thread_phase, store]
      · simp [set_thread_phase]
      · simp [lock_owned_p, set_thread_phase, thread_id, store]
    · intro _ hl
      rw [hu, try_lock_process_held _ _ _ hl]
      exact ⟨_, rfl, rfl, rfl⟩

/-- Witness for the amended C9: with no halt pending the thread with id 1 gets
a free token and is refused a held one; with the halt of id 2 pending it
waits. -/
theorem try_managed_phase_blocks_iff_witness :
    (∃ p, try_managed_phase (demo_world 0 []) 0 = .returns true p ∧
      (p.vms 0).thread_phase = .eManaged ∧ p.lock_ = thread_id (demo_world 0 []) 0 ∧
      lock_owned_p p 0 = true) ∧
    (∃ p, try_managed_phase (demo_world 2 []) 0 = .returns false p ∧
      (p.vms 0).thread_phase = ((demo_world 2 []).vms 0).thread_phase ∧
      p.lock_ = (demo_world 2 []).lock_) ∧
    (∃ p, try_managed_phase (set_halt (demo_world 0 []) 1).post 0 = .blocks p) :=
  ⟨(try_managed_phase_blocks_iff (demo_world 0 []) 0).2.2.1 (by decide) (by decide),
   (try_managed_phase_blocks_iff (demo_world 2 []) 0).2.2.2 (by decide) (by decide),
   (try_managed_phase_blocks_iff (set_halt (demo_world 0 []) 1).post 0).1.2
     (by decide)⟩

/-! ## Thread ids: `new_vm` and `delete_vm` -/

theorem new_vm_returns (w : World) (p : Ptr) (init : VM)
    (h : w.thread_ids_ + 1 < 2 ^ 32) :
    new_vm w p init = .returns p
      { w with
        thread_ids_ := w.thread_ids_ + 1
        vms := store w.vms p { init with thread_id := w.thread_ids_ + 1 }
        threads_ := w.threads_ ++ [some p] } := by
  have hm : (w.thread_ids_ + 1) % 2 ^ 32 = w.thread_ids_ + 1 := Nat.mod_eq_of_lt h
  have hlt : ¬ (w.thread_ids_ + 1 < w.thread_ids_) := by omega
  simp only [new_vm, hm, hlt, if_false]

theorem new_vm_wraps (w : World) (p : Ptr) (init : VM)
    (h : w.thread_ids_ = 2 ^ 32 - 1) :
    new_vm w p init = .raises .exceeded_maximum_threads { w with thread_ids_ := 0 } := by
  have hm : (w.thread_ids_ + 1) % 2 ^ 32 = 0 := by rw [h]; decide
  have hlt : 0 < w.thread_ids_ := by rw [h]; decide
  simp only [new_vm, hm, hlt, if_true]

theorem registry_inv_new_vm (w : World) (p : Ptr) (init : VM)
    (hinv : registry_inv w) (hfresh : some p ∉ w.threads_)
    (h : w.thread_ids_ + 1 < 2 ^ 32) :
    registry_inv (new_vm w p init).post := by
  rw [new_vm_returns w p init h]
  obtain ⟨hmem, hnd⟩ := hinv
  have hold : ∀ e ∈ w.threads_, ∀ q, e = some q → q ≠ p := by
    intro e he q hq hqp
    exact hfresh (hqp ▸ hq ▸ he)
  constructor
  · intro e he
    simp only [Outcome.post, List.mem_append, List.mem_singleton] at he
    rcases he with he | he
    · obtain ⟨q, hq, h1, h2⟩ := hmem e he
      have hqp := hold e he q hq
      refine ⟨q, hq, ?_⟩
      simp only [Outcome.post, thread_id, store, hqp, if_false]
      simp only [thread_id] at h1 h2
      omega
    · refine ⟨p, he, ?_⟩
      simp [Outcome.post, thread_id, store]
  · have hcongr : List.filterMap (fun e => Option.map
          (thread_id { w with
            thread_ids_ := w.thread_ids_ + 1
            vms := store w.vms p { init with thread_id := w.thread_ids_ + 1 }
            threads_ := w.threads_ ++ [some p] }) e) w.threads_ = registry_ids w := by
      unfold registry_ids
      apply List.filterMap_congr
      intro e he
      obtain ⟨q, hq, _, _⟩ := hmem e he
      have hqp := hold e he q hq
      subst hq
      simp [thread_id, store, hqp]
    simp only [registry_ids, Outcome.post, List.filterMap_append]
    rw [hcongr, List.nodup_append]
    refine ⟨hnd, by simp, ?_⟩
    intro x hx1 hx2
    have hx3 : x = w.thread_ids_ + 1 := by
      simpa [thread_id, store] using hx2
    unfold registry_ids at hx1
    rw [List.mem_filterMap] at hx1
    obtain ⟨e, he, hex⟩ := hx1
    obtain ⟨q, hq, _, h2⟩ := hmem e he
    subst hq
    have hex2 : thread_id w q = x := by simpa using hex
    omega

theorem registry_inv_delete_vm (w : World) (vm : Ptr) (hinv : registry_inv w) :
    registry_inv (delete_vm w vm).post := by
  obtain ⟨hmem, hnd⟩ := hinv
  constructor
  · intro e he
    simp only [delete_vm, Outcome.post, List.mem_filter] at he
    exact hmem e he.1
  · exact List.Nodup.sublist
      (List.Sublist.filterMap _ (List.filter_sublist w.threads_)) hnd

theorem run_calls_returns (calls : List Call) :
    ∀ w : World, registry_inv w → fresh_addresses w calls = true →
      w.thread_ids_ + count_new calls < 2 ^ 32 →
      ∃ w1, run_calls w calls =
          .returns (List.range' (w.thread_ids_ + 1) (count_new calls)) w1 ∧
        w1.thread_ids_ = w.thread_ids_ + count_new calls ∧ registry_inv w1 := by
  induction calls with
  | nil =>
    intro w hinv _ _
    exact ⟨w, rfl, rfl, hinv⟩
  | cons c rest ih =>
    intro w hinv hfresh hcount
    cases c with
    | new_vm p init =>
      simp only [count_new] at hcount ⊢
      simp only [fresh_addresses, Bool.and_eq_true, decide_eq_true_eq] at hfresh
      have hlt : w.thread_ids_ + 1 < 2 ^ 32 := by omega
      have hinv1 := registry_inv_new_vm w p init hinv hfresh.1 hlt
      have hfr := hfresh.2
      rw [new_vm_returns w p init hlt] at hinv1 hfr
      simp only [Outcome.post] at hinv1 hfr
      obtain ⟨w1, hrun, hids, hinv2⟩ := ih _ hinv1 hfr (by simp only []; omega)
      refine ⟨w1, ?_, ?_, hinv2⟩
      · simp only [run_calls, new_vm_returns w p init hlt, hrun, List.range'_succ]
        simp [thread_id, store]
      · rw [hids]
        simp only []
        omega
    | delete_vm vm =>
      simp only [count_new] at hcount ⊢
      simp only [fresh_addresses] at hfresh
      have hinv1 := registry_inv_delete_vm w vm hinv
      obtain ⟨w1, hrun, hids, hinv2⟩ := ih _ hinv1 hfresh hcount
      exact ⟨w1, by simpa [run_calls, delete_vm, Outcome.post] using hrun, hids, hinv2⟩

/-- Claim C7.  From a fresh nexus (counter 0, empty registry), a sequence of
`new_vm` and `delete_vm` calls with fewer than `2^32` calls of `new_vm`, each on
an address not registered at that moment, returns throughout; the `k`-th
`new_vm` returns a VM with id `k`; afterwards the counter is the number of
`new_vm` calls and the ids of the registry entries are pairwise distinct.  A
`new_vm` called with the counter at `2^32 - 1` raises the fatal condition and
registers nothing. -/
theorem new_vm_ids_increase (w : World) (hc : w.thread_ids_ = 0)
    (hr : w.threads_ = []) (calls : List Call)
    (hfresh : fresh_addresses w calls = true) (hn : count_new calls < 2 ^ 32) :
    (∃ w1, run_calls w calls = .returns (List.range' 1 (count_new calls)) w1 ∧
      w1.thread_ids_ = count_new calls ∧ (registry_ids w1).Nodup ∧
      ∀ e ∈ w1.threads_, ∃ p, e = some p ∧ 1 ≤ thread_id w1 p ∧
        thread_id w1 p ≤ count_new calls) ∧
    (∀ (w2 : World) (p : Ptr) (init : VM), w2.thread_ids_ = 2 ^ 32 - 1 →
      new_vm w2 p init = .raises .exceeded_maximum_threads { w2 with thread_ids_ := 0 } ∧
      (new_vm w2 p init).post.threads_ = w2.threads_ ∧
      Error.exceeded_maximum_threads.cls = .bug) := by
  constructor
  · have hinv : registry_inv w := by
      constructor
      · intro e he
        rw [hr] at he
        cases he
      · simp [registry_ids, hr]
    obtain ⟨w1, hrun, hids, hinv1⟩ := run_calls_returns calls w hinv hfresh (by omega)
    rw [hc] at hrun hids
    simp only [Nat.zero_add] at hrun hids
    refine ⟨w1, hrun, hids, hinv1.2, ?_⟩
    intro e he
    obtain ⟨p, hp, h1, h2⟩ := hinv1.1 e he
    exact ⟨p, hp, h1, hids ▸ h2⟩
  · intro w2 p init h2
    have := new_vm_wraps w2 p init h2
    exact ⟨this, by rw [this]; rfl, rfl⟩

/-- Witness for C7: two threads are registered, the first is removed and its
address is used again for a third: the ids returned are 1, 2, 3. -/
theorem new_vm_ids_increase_witness :
    (∃ w1, run_calls (demo_world 0 [])
        [.new_vm 5 (demo_vm 0), .new_vm 6 (demo_vm 0), .delete_vm 5, .new_vm 5 (demo_vm 0)] =
          .returns (List.range' 1 (count_new
            [.new_vm 5 (demo_vm 0), .new_vm 6 (demo_vm 0), .delete_vm 5,
              .new_vm 5 (demo_vm 0)])) w1 ∧
      w1.thread_ids_ = count_new
        [.new_vm 5 (demo_vm 0), .new_vm 6 (demo_vm 0), .delete_vm 5, .new_vm 5 (demo_vm 0)] ∧
      (registry_ids w1).Nodup ∧
      ∀ e ∈ w1.threads_, ∃ p, e = some p ∧ 1 ≤ thread_id w1 p ∧
        thread_id w1 p ≤ count_new
          [.new_vm 5 (demo_vm 0), .new_vm 6 (demo_vm 0), .delete_vm 5,
            .new_vm 5 (demo_vm 0)]) :=
  (new_vm_ids_increase (demo_world 0 []) rfl rfl
    [.new_vm 5 (demo_vm 0), .new_vm 6 (demo_vm 0), .delete_vm 5, .new_vm 5 (demo_vm 0)]
    (by decide) (by decide)).1

/-! ## Fork recovery: `after_fork_child` -/

theorem fork_entry_threads (current : Ptr) (w : World) (e : Option Ptr)
    (l : List (Option Ptr)) :
    fork_entry current { w with threads_ := l } e =
      { fork_entry current w e with threads_ := l } := by
  cases e with
  | none => rfl
  | some vm =>
    unfold fork_entry
    dsimp only
    split
    · split
      · split <;> rfl
      · rfl
    · split <;> rfl
    · rfl

theorem fork_entries_threads (current : Ptr) (entries : List (Option Ptr)) (w : World)
    (l : List (Option Ptr)) :
    fork_entries current { w with threads_ := l } entries =
      { fork_entries current w entries with threads_ := l } := by
  induction entries with
  | nil => rfl
  | cons e rest ih =>
    simp only [fork_entries, List.foldr_cons] at ih ⊢
    rw [ih, fork_entry_threads]

theorem fork_loop_eq (current : Ptr) (l : List (Option Ptr)) :
    ∀ (w : World) (extra : Nat), w.threads_ = l →
      fork_loop current (l.length + extra) w =
        some { fork_entries current w l with threads_ := [] } := by
  induction l using List.reverseRecOn with
  | nil =>
    intro w extra h
    cases w
    simp only at h
    subst h
    cases extra with
    | zero => simp [fork_loop, fork_entries]
    | succ n => simp [fork_loop, fork_entries]
  | append_singleton l e ih =>
    intro w extra h
    have hfuel : (l ++ [e]).length + extra = (l.length + extra) + 1 := by
      simp only [List.length_append, List.length_singleton]; omega
    rw [hfuel]
    simp only [fork_loop, h, List.getLast?_concat, List.dropLast_concat]
    rw [ih (fork_entry current { w with threads_ := l } e) extra
      (by rw [fork_entry_threads])]
    simp only [fork_entries, List.foldr_append, List.foldr_cons, List.foldr_nil]
    have := fork_entries_threads current l (fork_entry current w e) l
    simp only [fork_entries] at this
    rw [fork_entry_threads, this]

/-- Claim C8.  For every registry and calling thread, `after_fork_child` ends
(given as many loop iterations as the registry has entries, or more), and
afterwards the registry is the one-element list holding the VM of the calling
thread and the root VM of the environment is that VM. -/
theorem after_fork_child_registry (w : World) (current : Ptr) (extra : Nat) :
    ∃ w1, after_fork_child (w.threads_.length + extra) w current = some w1 ∧
      w1.threads_ = [some current] ∧ w1.root_vm = some current := by
  simp only [after_fork_child, fork_loop_eq current w.threads_ w extra rfl]
  exact ⟨_, rfl, rfl, rfl⟩

theorem Frame.refl (w : World) : Frame w w :=
  ⟨fun _ => rfl, fun _ => rfl, fun _ => rfl, fun _ h => h, fun _ h => h, fun _ h => h,
    fun _ h => h, fun _ => rfl, fun _ h => h, fun _ h => h, fun _ h => h⟩

theorem Frame.trans {w w1 w2 : World} (h1 : Frame w w1) (h2 : Frame w1 w2) : Frame w w2 where
  kind v := (h2.kind v).trans (h1.kind v)
  thread v := (h2.thread v).trans (h1.thread v)
  fiber v := (h2.fiber v).trans (h1.fiber v)
  zombie v h := h2.zombie v (h1.zombie v h)
  parked v h := h2.parked v (h1.parked v h)
  canceled v h := h2.canceled v (h1.canceled v h)
  discarded v h := h2.discarded v (h1.discarded v h)
  root_fiber t := (h2.root_fiber t).trans (h1.root_fiber t)
  stopped t h := h2.stopped t (h1.stopped t h)
  relinked t h := h2.relinked t (h1.relinked t h)
  dead f h := h2.dead f (h1.dead f h)

theorem frame_set_zombie (w : World) (v : Ptr) : Frame w (set_zombie w v) := by
  constructor <;> intro x <;> by_cases h : x = v <;> simp [set_zombie, store, h]

theorem frame_reset_parked (w : World) (v : Ptr) : Frame w (reset_parked w v) := by
  constructor <;> intro x <;> by_cases h : x = v <;> simp [reset_parked, store, h]

theorem frame_set_canceled (w : World) (v : Ptr) : Frame w (set_canceled w v) := by
  constructor <;> intro x <;> by_cases h : x = v <;> simp [set_canceled, store, h]

theorem frame_discard (w : World) (v : Ptr) : Frame w (discard w v) := by
  constructor <;> intro x <;> by_cases h : x = v <;> simp [discard, store, h]

theorem frame_thread_stopped (w : World) (t : Ptr) : Frame w (thread_stopped w t) := by
  constructor <;> intro x <;> by_cases h : x = t <;> simp [thread_stopped, store, h]

theorem frame_thread_relink (w : World) (t : Ptr) : Frame w (thread_relink w t) := by
  constructor <;> intro x <;> by_cases h : x = t <;> simp [thread_relink, store, h]

theorem frame_fiber_dead (w : World) (f : Ptr) : Frame w (fiber_dead w f) := by
  constructor <;> intro x <;> by_cases h : x = f <;> simp [fiber_dead, store, h]

theorem fork_entry_frame (current : Ptr) (w : World) (e : Option Ptr) :
    Frame w (fork_entry current w e) := by
  cases e with
  | none => exact Frame.refl w
  | some vm =>
    unfold fork_entry
    dsimp only
    split
    · split
      · split
        · exact frame_thread_relink _ _
        · exact ((frame_thread_stopped _ _).trans (frame_reset_parked _ _)).trans
            (frame_set_zombie _ _)
      · exact (frame_reset_parked _ _).trans (frame_set_zombie _ _)
    · split
      · exact ((frame_fiber_dead _ _).trans (frame_set_canceled _ _)).trans
          (frame_set_zombie _ _)
      · exact Frame.refl w
    · exact frame_discard _ _

theorem fork_entries_cons (current : Ptr) (w : World) (e : Option Ptr)
    (rest : List (Option Ptr)) :
    fork_entries current w (e :: rest) =
      fork_entry current (fork_entries current w rest) e := rfl

theorem fork_entries_frame (current : Ptr) (w : World) (entries : List (Option Ptr)) :
    Frame w (fork_entries current w entries) := by
  induction entries with
  | nil => exact Frame.refl w
  | cons e rest ih =>
    rw [fork_entries_cons]
    exact ih.trans (fork_entry_frame _ _ _)

/-- One thread-kind entry other than the caller: zombie, parked state reset,
Thread handle stopped. -/
theorem fork_entry_thread (current : Ptr) (w : World) (v : Ptr)
    (hk : (w.vms v).kind = .eThread) (hv : v ≠ current) :
    ((fork_entry current w (some v)).vms v).zombie = true ∧
    ((fork_entry current w (some v)).vms v).parked = false ∧
    ∀ t, (w.vms v).thread = .obj t →
      ((fork_entry current w (some v)).thread_objs t).stopped = true := by
  unfold fork_entry
  simp only [hk]
  split
  · rename_i t ht
    simp [hv, set_zombie, reset_parked, thread_stopped, store, ht]
  · rename_i hne
    refine ⟨by simp [set_zombie, reset_parked, store],
      by simp [set_zombie, reset_parked, store], fun t ht => absurd ht (hne t)⟩

/-- One fiber-kind entry with a Fiber: the Fiber dead, the VM canceled and
zombie. -/
theorem fork_entry_fiber (current : Ptr) (w : World) (v f : Ptr)
    (hk : (w.vms v).kind = .eFiber) (hf : (w.vms v).fiber = some f) :
    ((fork_entry current w (some v)).fiber_objs f).status = .eDead ∧
    ((fork_entry current w (some v)).vms v).canceled = true ∧
    ((fork_entry current w (some v)).vms v).zombie = true := by
  unfold fork_entry
  simp [hk, hf, set_zombie, set_canceled, fiber_dead, store]

/-- One system-helper entry: discarded. -/
theorem fork_entry_system (current : Ptr) (w : World) (v : Ptr)
    (hk : (w.vms v).kind = .eSystem) :
    ((fork_entry current w (some v)).vms v).discarded = true := by
  unfold fork_entry
  simp [hk, discard, store]

theorem fork_entries_thread (current : Ptr) (w : World) (v : Ptr)
    (hk : (w.vms v).kind = .eThread) (hv : v ≠ current) (entries : List (Option Ptr))
    (hmem : some v ∈ entries) :
    ((fork_entries current w entries).vms v).zombie = true ∧
    ((fork_entries current w entries).vms v).parked = false ∧
    ∀ t, (w.vms v).thread = .obj t →
      ((fork_entries current w entries).thread_objs t).stopped = true := by
  induction entries with
  | nil => cases hmem
  | cons e rest ih =>
    rw [fork_entries_cons]
    have hfr := fork_entries_frame current w rest
    rcases List.mem_cons.1 hmem with he | he
    · subst he
      obtain ⟨h1, h2, h3⟩ := fork_entry_thread current (fork_entries current w rest) v
        ((hfr.kind v).trans hk) hv
      exact ⟨h1, h2, fun t ht => h3 t ((hfr.thread v).trans ht)⟩
    · obtain ⟨h1, h2, h3⟩ := ih he
      have hst := fork_entry_frame current (fork_entries current w rest) e
      exact ⟨hst.zombie v h1, hst.parked v h2, fun t ht => hst.stopped t (h3 t ht)⟩

theorem fork_entries_fiber (current : Ptr) (w : World) (v f : Ptr)
    (hk : (w.vms v).kind = .eFiber) (hf : (w.vms v).fiber = some f)
    (entries : List (Option Ptr)) (hmem : some v ∈ entries) :
    ((fork_entries current w entries).fiber_objs f).status = .eDead ∧
    ((fork_entries current w entries).vms v).canceled = true ∧
    ((fork_entries current w entries).vms v).zombie = true := by
  induction entries with
  | nil => cases hmem
  | cons e rest ih =>
    rw [fork_entries_cons]
    have hfr := fork_entries_frame current w rest
    rcases List.mem_cons.1 hmem with he | he
    · subst he
      exact fork_entry_fiber current (fork_entries current w rest) v f
        ((hfr.kind v).trans hk) ((hfr.fiber v).trans hf)
    · obtain ⟨h1, h2, h3⟩ := ih he
      have hst := fork_entry_frame current (fork_entries current w rest) e
      exact ⟨hst.dead f h1, hst.canceled v h2, hst.zombie v h3⟩

theorem fork_entries_system (current : Ptr) (w : World) (v : Ptr)
    (hk : (w.vms v).kind = .eSystem) (entries : List (Option Ptr))
    (hmem : some v ∈ entries) :
    ((fork_entries current w entries).vms v).discarded = true := by
  induction entries with
  | nil => cases hmem
  | cons e rest ih =>
    rw [fork_entries_cons]
    have hfr := fork_entries_frame current w rest
    rcases List.mem_cons.1 hmem with he | he
    · subst he
      exact fork_entry_system current (fork_entries current w rest) v ((hfr.kind v).trans hk)
    · exact (fork_entry_frame current (fork_entries current w rest) e).discarded v (ih he)

/-- Handling an entry writes to no VM other than the one of the entry. -/
theorem fork_entry_vms_other (current : Ptr) (w : World) (v x : Ptr) (hx : x ≠ v) :
    (fork_entry current w (some v)).vms x = w.vms x := by
  unfold fork_entry
  dsimp only
  split
  · split
    · split
      · rfl
      · simp [set_zombie, reset_parked, thread_stopped, store, hx]
    · simp [set_zombie, reset_parked, store, hx]
  · split
    · simp [set_zombie, set_canceled, fiber_dead, store, hx]
    · rfl
  · simp [discard, store, hx]

/-- The caller, a thread-kind VM with a Thread handle, is left as it was by the
handling of any entry. -/
theorem fork_entry_caller (current : Ptr) (w : World) (e : Option Ptr) (t : Ptr)
    (hk : (w.vms current).kind = .eThread) (ht : (w.vms current).thread = .obj t) :
    (fork_entry current w e).vms current = w.vms current := by
  cases e with
  | none => rfl
  | some v =>
    by_cases hv : current = v
    · subst hv
      unfold fork_entry
      simp [hk, ht, thread_relink]
    · exact fork_entry_vms_other current w v current hv

theorem fork_entry_relink (current : Ptr) (w : World) (t : Ptr)
    (hk : (w.vms current).kind = .eThread) (ht : (w.vms current).thread = .obj t) :
    ((fork_entry current w (some current)).thread_objs t).current_fiber =
      (w.thread_objs t).fiber := by
  unfold fork_entry
  simp [hk, ht, thread_relink, store]

/-- Handling an entry stops the Thread `t` only if the entry is a thread-kind VM
other than the caller whose handle is `t`. -/
theorem fork_entry_not_stopped (current : Ptr) (w : World) (e : Option Ptr) (t : Ptr)
    (h : ∀ v, e = some v → v ≠ current → (w.vms v).kind = .eThread →
      (w.vms v).thread ≠ .obj t) :
    ((fork_entry current w e).thread_objs t).stopped = (w.thread_objs t).stopped := by
  cases e with
  | none => rfl
  | some v =>
    unfold fork_entry
    dsimp only
    split
    · rename_i hk
      split
      · rename_i t1 ht1
        split
        · by_cases htt : t = t1 <;> simp [thread_relink, store, htt]
        · rename_i hv
          have hne : t ≠ t1 := by
            intro htt
            exact h v rfl hv hk (htt ▸ ht1)
          simp [set_zombie, reset_parked, thread_stopped, store, hne]
      · rfl
    · split <;> rfl
    · rfl

theorem fork_entries_caller (current : Ptr) (w : World) (t : Ptr)
    (hk : (w.vms current).kind = .eThread) (ht : (w.vms current).thread = .obj t)
    (entries : List (Option Ptr)) :
    (fork_entries current w entries).vms current = w.vms current ∧
    (some current ∈ entries →
      ((fork_entries current w entries).thread_objs t).current_fiber =
        (w.thread_objs t).fiber) ∧
    ((∀ v, some v ∈ entries → v ≠ current → (w.vms v).kind = .eThread →
        (w.vms v).thread ≠ .obj t) →
      ((fork_entries current w entries).thread_objs t).stopped =
        (w.thread_objs t).stopped) := by
  induction entries with
  | nil => exact ⟨rfl, fun h => absurd h (List.not_mem_nil _), fun _ => rfl⟩
  | cons e rest ih =>
    rw [fork_entries_cons]
    obtain ⟨h1, h2, h3⟩ := ih
    have hfr := fork_entries_frame current w rest
    have hk1 : ((fork_entries current w rest).vms current).kind = .eThread := by
      rw [h1]; exact hk
    have ht1 : ((fork_entries current w rest).vms current).thread = .obj t := by
      rw [h1]; exact ht
    refine ⟨?_, ?_, ?_⟩
    · rw [fork_entry_caller current _ e t hk1 ht1, h1]
    · intro hmem
      rcases List.mem_cons.1 hmem with he | he
      · subst he
        rw [fork_entry_relink current _ t hk1 ht1]
        exact hfr.root_fiber t
      · have hst := fork_entry_frame current (fork_entries current w rest) e
        have hrel := hst.relinked t ((h2 he).trans (hfr.root_fiber t).symm)
        rw [hrel, hst.root_fiber t]
        exact hfr.root_fiber t
    · intro hno
      rw [fork_entry_not_stopped current _ e t]
      · exact h3 (fun v hv => hno v (List.mem_cons_of_mem _ hv))
      · intro v he hv hkv
        rw [hfr.kind v] at hkv
        rw [hfr.thread v]
        exact hno v (he ▸ List.mem_cons_self _ _) hv hkv

/-- Claim C10, as stated, fails on the registry `fork_bare` with the VM at
address 0 calling: the caller, a thread-kind VM without a Thread handle and not
a zombie before, is a zombie afterwards with its parked state reset (against
part 2), and the fiber-kind entry at address 1, which has no Fiber, is neither
canceled nor a zombie afterwards (against part 3). -/
theorem after_fork_child_bare_entries :
    some 0 ∈ fork_bare.threads_ ∧ some 1 ∈ fork_bare.threads_ ∧
    (fork_bare.vms 0).kind = .eThread ∧ (fork_bare.vms 0).zombie = false ∧
    (fork_bare.vms 1).kind = .eFiber ∧
    (after_fork_child 2 fork_bare 0).map
        (fun w1 => ((w1.vms 0).zombie, (w1.vms 0).parked)) = some (true, false) ∧
    (after_fork_child 2 fork_bare 0).map
        (fun w1 => ((w1.vms 1).zombie, (w1.vms 1).canceled)) = some (false, false) := by
  decide

/-- Claim C10, amended.  For every registry handled by `after_fork_child` with
the caller `current`: (1) every thread-kind entry other than the caller is a
zombie with its parked state reset, and its Thread handle, when it has one, is
stopped; (2) the caller, when it is a thread-kind VM with a Thread handle, is
left as it was (no zombie mark, parked state kept), its Thread handle is
re-linked to its own fiber if the caller is in the registry, and that handle is
not stopped unless another thread-kind entry has the same handle; (3) every
fiber-kind entry that has a Fiber has it dead and is canceled and a zombie;
(4) every system-helper entry is discarded. -/
theorem after_fork_child_dispositions (w : World) (current : Ptr) (extra : Nat) :
    ∃ w1, after_fork_child (w.threads_.length + extra) w current = some w1 ∧
      (∀ v, some v ∈ w.threads_ → (w.vms v).kind = .eThread → v ≠ current →
        (w1.vms v).zombie = true ∧ (w1.vms v).parked = false ∧
        ∀ t, (w.vms v).thread = .obj t → (w1.thread_objs t).stopped = true) ∧
      (∀ t, (w.vms current).kind = .eThread → (w.vms current).thread = .obj t →
        w1.vms current = w.vms current ∧
        (some current ∈ w.threads_ →
          (w1.thread_objs t).current_fiber = (w.thread_objs t).fiber) ∧
        ((∀ v, some v ∈ w.threads_ → v ≠ current → (w.vms v).kind = .eThread →
            (w.vms v).thread ≠ .obj t) →
          (w1.thread_objs t).stopped = (w.thread_objs t).stopped)) ∧
      (∀ v f, some v ∈ w.threads_ → (w.vms v).kind = .eFiber →
        (w.vms v).fiber = some f →
        (w1.fiber_objs f).status = .eDead ∧ (w1.vms v).canceled = true ∧
        (w1.vms v).zombie = true) ∧
      (∀ v, some v ∈ w.threads_ → (w.vms v).kind = .eSystem →
        (w1.vms v).discarded = true) := by
  simp only [after_fork_child, fork_loop_eq current w.threads_ w extra rfl]
  refine ⟨_, rfl, ?_, ?_, ?_, ?_⟩
  · intro v hmem hk hv
    exact fork_entries_thread current w v hk hv w.threads_ hmem
  · intro t hk ht
    exact fork_entries_caller current w t hk ht w.threads_
  · intro v f hmem hk hf
    exact fork_entries_fiber current w v f hk hf w.threads_ hmem
  · intro v hmem hk
    exact fork_entries_system current w v hk w.threads_ hmem

/-- Witness for the amended C10, on the registry A (caller), B (language
thread), C (fiber), D (system helper) of `fork_demo`: B is a zombie and its
Thread stopped, A is as before with its Thread re-linked and not stopped, the
Fiber of C is dead, D is discarded. -/
theorem after_fork_child_dispositions_witness :
    ∃ w1, after_fork_child (fork_demo.threads_.length + 0) fork_demo 0 = some w1 ∧
      ((w1.vms 1).zombie = true ∧ (w1.vms 1).parked = false ∧
        ∀ t, (fork_demo.vms 1).thread = .obj t → (w1.thread_objs t).stopped = true) ∧
      (w1.vms 0 = fork_demo.vms 0 ∧
        (w1.thread_objs 0).current_fiber = (fork_demo.thread_objs 0).fiber ∧
        (w1.thread_objs 0).stopped = (fork_demo.thread_objs 0).stopped) ∧
      ((w1.fiber_objs 0).status = .eDead ∧ (w1.vms 2).canceled = true ∧
        (w1.vms 2).zombie = true) ∧
      (w1.vms 3).discarded = true :=
  match after_fork_child_dispositions fork_demo 0 0 with
  | ⟨w1, h, h1, h2, h3, h4⟩ =>
    ⟨w1, h, h1 1 (by decide) (by decide) (by decide),
      ⟨(h2 0 (by decide) (by decide)).1, (h2 0 (by decide) (by decide)).2.1 (by decide),
        (h2 0 (by decide) (by decide)).2.2 (by
          intro v hv hne _
          simp only [fork_demo, List.mem_cons, Option.some.injEq, List.mem_singleton,
            List.not_mem_nil, or_false] at hv
          rcases hv with rfl | rfl | rfl | rfl
          · exact absurd rfl hne
          · decide
          · decide
          · decide)⟩,
      h3 2 0 (by decide) (by decide) (by decide), h4 3 (by decide) (by decide)⟩

/-! ## Backoff waits and deadlock detection -/

theorem delay_bounds : ∀ d ∈ delay, 31 ≤ d ∧ d ≤ 854 := by decide

/-- A wait that C++ defines adds one table entry, between 31 and 854, and
increments the counter. -/
theorem wait_some (w w2 : World) (ns : Nat) (h : wait w = some (ns, w2)) :
    31 ≤ ns ∧ ns ≤ 854 ∧ ns ∈ delay ∧ w2 = { w with wait_i := w.wait_i + 1 } := by
  unfold wait at h
  split at h
  · rename_i hdef
    simp only [Option.some.injEq, Prod.mk.injEq] at h
    obtain ⟨h1, h2⟩ := h
    have hlt0 := Int.tmod_lt_of_pos w.wait_i (show (0 : Int) < modulo by decide)
    have hlt : (Int.tmod w.wait_i modulo).toNat < delay.length := by
      have hm : modulo = 20 := by decide
      have hl : delay.length = 20 := by decide
      rw [hm] at hlt0
      have := hdef.2
      rw [hm] at this
      rw [hm, hl]
      omega
    have hget : delay.getD (Int.tmod w.wait_i modulo).toNat 0 =
        delay[(Int.tmod w.wait_i modulo).toNat] := by
      simp [List.getD, List.getElem?_eq_getElem hlt]
    have hmem : delay[(Int.tmod w.wait_i modulo).toNat] ∈ delay := List.getElem_mem _
    rw [hget] at h1
    subst h1
    exact ⟨(delay_bounds _ hmem).1, (delay_bounds _ hmem).2, hmem, h2.symm⟩
  · cases h

theorem overshoot (c limit ns : Nat) (hl : limit ≤ c) (hns : ns ≤ 854) :
    (limit + ns) % 2 ^ 64 ≤ c + 854 :=
  le_trans (Nat.mod_le _ _) (by omega)

theorem detect_deadlock_vm_cases (c : Nat) (w : World) (n : Nat) (o : Ptr) :
    (c < n ∧ detect_deadlock_vm c w n o = .raises (.thread_will_not_yield n o) w) ∨
    (n ≤ c ∧ detect_deadlock_vm c w n o = .returns () w) := by
  by_cases h : n > c
  · exact Or.inl ⟨h, by simp [detect_deadlock_vm, h]⟩
  · exact Or.inr ⟨by omega, by simp [detect_deadlock_vm, h]⟩

theorem detect_deadlock_cases (c : Nat) (w : World) (n : Nat) :
    (c < n ∧ detect_deadlock c w n = .raises (.unable_to_lock n) w) ∨
    (n ≤ c ∧ detect_deadlock c w n = .returns () w) := by
  by_cases h : n > c
  · exact Or.inl ⟨h, by simp [detect_deadlock, h]⟩
  · exact Or.inr ⟨by omega, by simp [detect_deadlock, h]⟩

/-- Both overloads of `detect_deadlock` raise exactly when the accumulated wait
is above the ceiling, and then the error carries that wait. -/
theorem detect_deadlock_iff (c : Nat) (w : World) (n : Nat) (o : Ptr) :
    ((∃ e p, detect_deadlock c w n = .raises e p) ↔ c < n) ∧
    (c < n → detect_deadlock c w n = .raises (.unable_to_lock n) w) ∧
    (n ≤ c → detect_deadlock c w n = .returns () w) ∧
    ((∃ e p, detect_deadlock_vm c w n o = .raises e p) ↔ c < n) ∧
    (c < n → detect_deadlock_vm c w n o = .raises (.thread_will_not_yield n o) w) ∧
    (n ≤ c → detect_deadlock_vm c w n o = .returns () w) := by
  refine ⟨⟨?_, ?_⟩, ?_, ?_, ⟨?_, ?_⟩, ?_, ?_⟩
  · rintro ⟨e, p, h⟩
    rcases detect_deadlock_cases c w n with ⟨h1, _⟩ | ⟨_, h2⟩
    · exact h1
    · rw [h2] at h; cases h
  · intro h
    rcases detect_deadlock_cases c w n with ⟨_, h2⟩ | ⟨h1, _⟩
    · exact ⟨_, _, h2⟩
    · omega
  · intro h
    rcases detect_deadlock_cases c w n with ⟨_, h2⟩ | ⟨h1, _⟩
    · exact h2
    · omega
  · intro h
    rcases detect_deadlock_cases c w n with ⟨h1, _⟩ | ⟨_, h2⟩
    · omega
    · exact h2
  · rintro ⟨e, p, h⟩
    rcases detect_deadlock_vm_cases c w n o with ⟨h1, _⟩ | ⟨_, h2⟩
    · exact h1
    · rw [h2] at h; cases h
  · intro h
    rcases detect_deadlock_vm_cases c w n o with ⟨_, h2⟩ | ⟨h1, _⟩
    · exact ⟨_, _, h2⟩
    · omega
  · intro h
    rcases detect_deadlock_vm_cases c w n o with ⟨_, h2⟩ | ⟨h1, _⟩
    · exact h2
    · omega
  · intro h
    rcases detect_deadlock_vm_cases c w n o with ⟨h1, _⟩ | ⟨_, h2⟩
    · omega
    · exact h2

/-- Whatever the other threads do, the inner loop of `wait_for_all` raises only
the deadlock error for its thread, with the accumulated wait within one table
entry above the ceiling; when it returns the accumulated wait is at most the
ceiling; it is never blocked. -/
theorem wait_for_all_spin_bound (c : Nat) (env : Nat → World → World) (o : Ptr) :
    ∀ (fuel k : Nat) (w : World) (limit : Nat), limit ≤ c →
      ∀ r, wait_for_all_spin c env o fuel k w limit = some r →
        (∃ n p, r = .raises (.thread_will_not_yield n o) p ∧ c < n ∧ n ≤ c + 854) ∨
        (∃ k1 l1 p, r = .returns (k1, l1) p ∧ l1 ≤ c) ∨
        (∃ p, r = .undefined p) := by
  intro fuel
  induction fuel with
  | zero =>
    intro k w limit _ r hr
    simp [wait_for_all_spin] at hr
  | succ fuel ih =>
    intro k w limit hl r hr
    simp only [wait_for_all_spin] at hr
    split at hr
    · cases hr
      exact Or.inr (Or.inl ⟨_, _, _, rfl, hl⟩)
    · cases hw : wait (env k w) with
      | none =>
        rw [hw] at hr
        cases hr
        exact Or.inr (Or.inr ⟨_, rfl⟩)
      | some pr =>
        obtain ⟨ns, w2⟩ := pr
        rw [hw] at hr
        simp only at hr
        have hns := (wait_some _ _ _ hw).2.1
        rcases detect_deadlock_vm_cases c w2 ((limit + ns) % 2 ^ 64) o with
          ⟨hgt, hd⟩ | ⟨hle, hd⟩
        · rw [hd] at hr
          cases hr
          exact Or.inl ⟨_, _, rfl, hgt, overshoot c limit _ hl hns⟩
        · rw [hd] at hr
          exact ih _ _ _ hle r hr

theorem wait_for_all_loop_bound (c : Nat) (env : Nat → World → World) (vm : Ptr)
    (fuel : Nat) (l : List (Option Ptr)) :
    ∀ (k : Nat) (w : World) (limit : Nat), limit ≤ c →
      ∀ r, wait_for_all_loop c env vm fuel l k w limit = some r →
        (∃ n o p, r = .raises (.thread_will_not_yield n o) p ∧ c < n ∧ n ≤ c + 854) ∨
        (∃ k1 l1 p, r = .returns (k1, l1) p ∧ l1 ≤ c) ∨
        (∃ p, r = .undefined p) := by
  induction l with
  | nil =>
    intro k w limit hl r hr
    simp only [wait_for_all_loop, Option.some.injEq] at hr
    exact Or.inr (Or.inl ⟨_, _, _, hr.symm, hl⟩)
  | cons e rest ih =>
    intro k w limit hl r hr
    cases e with
    | none =>
      simp only [wait_for_all_loop] at hr
      exact ih k w limit hl r hr
    | some o =>
      simp only [wait_for_all_loop] at hr
      split at hr
      · exact ih k w limit hl r hr
      · split at hr
        · exact ih _ _ limit hl r hr
        · cases hs : wait_for_all_spin c env o fuel (k + 1) (env k w) limit with
          | none => simp [hs] at hr
          | some r1 =>
            rcases wait_for_all_spin_bound c env o fuel _ _ limit hl r1 hs with
              ⟨n, p, h1, h2, h3⟩ | ⟨k1, l1, p, h1, h2⟩ | ⟨p, h1⟩
            · rw [hs, h1] at hr
              simp only [Option.some.injEq] at hr
              exact Or.inl ⟨n, o, p, hr.symm, h2, h3⟩
            · rw [hs, h1] at hr
              exact ih _ _ _ h2 r hr
            · rw [hs, h1] at hr
              simp only [Option.some.injEq] at hr
              exact Or.inr (Or.inr ⟨p, hr.symm⟩)

theorem try_lock_cases (w : World) (vm : Ptr) :
    (w.lock_ = 0 ∧ ∃ p, try_lock w vm = .returns true p) ∨
    (w.lock_ ≠ 0 ∧ try_lock w vm = .returns false w) := by
  by_cases h : w.lock_ = 0
  · exact Or.inl ⟨h, { w with lock_ := thread_id w vm }, by simp [try_lock, h]⟩
  · exact Or.inr ⟨h, by simp [try_lock, h]⟩

/-- Whatever the other threads, the collector and `yield` do, an error that
comes out of the loop of `try_lock_wait` was either raised by `yield` or is the
deadlock error of the loop with the accumulated wait within one table entry
above the ceiling. -/
theorem try_lock_wait_loop_bound (c : Nat) (collect_requested_p : World → Bool)
    (yield : World → Ptr → Outcome Unit) (env : Nat → World → World) (vm : Ptr) :
    ∀ (fuel k : Nat) (w : World) (limit : Nat), limit ≤ c →
      ∀ e p, try_lock_wait_loop c collect_requested_p yield env vm fuel k w limit =
          some (.raises e p) →
        (∃ w1, yield w1 vm = .raises e p) ∨
        (∃ n, e = .unable_to_lock n ∧ c < n ∧ n ≤ c + 854) := by
  intro fuel
  induction fuel with
  | zero =>
    intro k w limit _ e p hr
    simp [try_lock_wait_loop] at hr
  | succ fuel ih =>
    intro k w limit hl e p hr
    simp only [try_lock_wait_loop] at hr
    rcases try_lock_cases (env k w) vm with ⟨_, p1, ht⟩ | ⟨_, ht⟩
    · rw [ht] at hr
      simp at hr
    · rw [ht] at hr
      simp only at hr
      split at hr
      · rename_i u w2 hy
        cases hw : wait w2 with
        | none =>
          rw [hw] at hr
          simp at hr
        | some pr =>
          obtain ⟨ns, w3⟩ := pr
          rw [hw] at hr
          simp only at hr
          have hns := (wait_some _ _ _ hw).2.1
          rcases detect_deadlock_cases c w3 ((limit + ns) % 2 ^ 64) with
            ⟨hgt, hd⟩ | ⟨hle, hd⟩
          · rw [hd] at hr
            simp only [Option.some.injEq, Outcome.raises.injEq] at hr
            exact Or.inr ⟨_, hr.1.symm, hgt, overshoot c limit _ hl hns⟩
          · rw [hd] at hr
            exact ih _ _ _ hle e p hr
      · rename_i err w2 hy
        simp only [Option.some.injEq, Outcome.raises.injEq] at hr
        obtain ⟨h1, h2⟩ := hr
        subst h1 h2
        left
        by_cases hcr : collect_requested_p (env k w) = true
        · rw [if_pos hcr] at hy
          exact ⟨_, hy⟩
        · rw [if_neg hcr] at hy
          cases hy
      · simp at hr
      · simp at hr

/-- While nobody releases the token and `yield` returns, the loop of
`try_lock_wait` does not go on past the ceiling: given enough iterations it
ends, in the deadlock error of the loop or in an undefined wait. -/
theorem try_lock_wait_loop_escalates (c : Nat) (hc : c + 854 < 2 ^ 64)
    (collect_requested_p : World → Bool) (yield : World → Ptr → Outcome Unit)
    (env : Nat → World → World) (vm : Ptr)
    (henv : ∀ k w1, w1.lock_ ≠ 0 → (env k w1).lock_ ≠ 0)
    (hyield : ∀ w1, w1.lock_ ≠ 0 → ∃ p, yield w1 vm = .returns () p ∧ p.lock_ ≠ 0) :
    ∀ (fuel k : Nat) (w : World) (limit : Nat), w.lock_ ≠ 0 → limit ≤ c →
      c < limit + 31 * fuel →
      ∃ r, try_lock_wait_loop c collect_requested_p yield env vm fuel k w limit = some r ∧
        ((∃ n p, r = .raises (.unable_to_lock n) p ∧ c < n ∧ n ≤ c + 854) ∨
          (∃ p, r = .undefined p)) := by
  intro fuel
  induction fuel with
  | zero =>
    intro k w limit _ hl hf
    omega
  | succ fuel ih =>
    intro k w limit hw0 hl hf
    have hheld := henv k w hw0
    have ht : try_lock (env k w) vm = .returns false (env k w) := by
      simp [try_lock, hheld]
    have hy : ∃ w2, (if collect_requested_p (env k w) then yield (env k w) vm
        else .returns () (env k w)) = .returns () w2 ∧ w2.lock_ ≠ 0 := by
      by_cases hcr : collect_requested_p (env k w) = true
      · obtain ⟨p, hp1, hp2⟩ := hyield (env k w) hheld
        exact ⟨p, by rw [if_pos hcr]; exact hp1, hp2⟩
      · exact ⟨env k w, by rw [if_neg hcr], hheld⟩
    obtain ⟨w2, hy1, hy2⟩ := hy
    simp only [try_lock_wait_loop, ht, hy1]
    cases hw : wait w2 with
    | none => exact ⟨_, rfl, Or.inr ⟨_, rfl⟩⟩
    | some pr =>
      obtain ⟨ns, w3⟩ := pr
      obtain ⟨hns1, hns2, _, hw3⟩ := wait_some _ _ _ hw
      have hmod : (limit + ns) % 2 ^ 64 = limit + ns := Nat.mod_eq_of_lt (by omega)
      simp only []
      rcases detect_deadlock_cases c w3 ((limit + ns) % 2 ^ 64) with
        ⟨hgt, hd⟩ | ⟨hle, hd⟩
      · rw [hd]
        exact ⟨_, rfl, Or.inl ⟨_, _, rfl, hgt, overshoot c limit _ hl hns2⟩⟩
      · rw [hd]
        simp only []
        rw [hmod] at hle ⊢
        exact ih (k + 1) w3 _ (by rw [hw3]; exact hy2) hle (by omega)

/-- Claim C6.  For every ceiling `cLockLimit`, whatever the other threads, the
collector and `yield` do.  Every table entry lies between 31 and 854, 854 is an
entry, and every wait that C++ defines adds one entry.  Both overloads of
`detect_deadlock` raise exactly when the accumulated wait is strictly above the
ceiling.  An error raised by `wait_for_all` is the deadlock error of
`detect_deadlock` with an accumulated wait `n` such that
`cLockLimit < n ≤ cLockLimit + 854`; an error that comes out of `try_lock_wait`
was either raised inside `yield` or is the deadlock error of its own
`detect_deadlock`, with the same bounds.  And the error is raised: while nobody
releases the token and `yield` returns, a run of `try_lock_wait` of
`cLockLimit / 31 + 1` iterations or more that stays within defined behaviour
ends in the deadlock error. -/
theorem deadlock_overshoot_bounded (cLockLimit : Nat)
    (collect_requested_p : World → Bool) (yield : World → Ptr → Outcome Unit)
    (env : Nat → World → World) (fuel : Nat) (w : World) (vm : Ptr) :
    (∀ d ∈ delay, 31 ≤ d ∧ d ≤ 854) ∧ 854 ∈ delay ∧
    (∀ w1 ns w2, wait w1 = some (ns, w2) → ns ∈ delay) ∧
    (∀ (w1 : World) (n : Nat) (o : Ptr),
      ((∃ e p, detect_deadlock cLockLimit w1 n = .raises e p) ↔ cLockLimit < n) ∧
      (cLockLimit < n → detect_deadlock cLockLimit w1 n = .raises (.unable_to_lock n) w1) ∧
      ((∃ e p, detect_deadlock_vm cLockLimit w1 n o = .raises e p) ↔ cLockLimit < n) ∧
      (cLockLimit < n →
        detect_deadlock_vm cLockLimit w1 n o = .raises (.thread_will_not_yield n o) w1)) ∧
    (∀ e p, wait_for_all cLockLimit env fuel w vm = some (.raises e p) →
      ∃ n o, e = .thread_will_not_yield n o ∧ e.cls = .deadlock ∧
        cLockLimit < n ∧ n ≤ cLockLimit + 854) ∧
    (∀ e p, try_lock_wait cLockLimit collect_requested_p yield env fuel w vm =
        some (.raises e p) →
      (∃ w1, yield w1 vm = .raises e p) ∨
      (∃ n, e = .unable_to_lock n ∧ e.cls = .deadlock ∧
        cLockLimit < n ∧ n ≤ cLockLimit + 854)) ∧
    (w.lock_ ≠ 0 → (∀ k w1, w1.lock_ ≠ 0 → (env k w1).lock_ ≠ 0) →
      (∀ w1, w1.lock_ ≠ 0 → ∃ p, yield w1 vm = .returns () p ∧ p.lock_ ≠ 0) →
      cLockLimit + 854 < 2 ^ 64 →
      ∀ extra,
        (∀ p, try_lock_wait cLockLimit collect_requested_p yield env
          (cLockLimit / 31 + 1 + extra) w vm ≠ some (.undefined p)) →
        ∃ n p, try_lock_wait cLockLimit collect_requested_p yield env
            (cLockLimit / 31 + 1 + extra) w vm = some (.raises (.unable_to_lock n) p) ∧
          cLockLimit < n ∧ n ≤ cLockLimit + 854) := by
  refine ⟨delay_bounds, by decide, fun w1 ns w2 h => (wait_some w1 w2 ns h).2.2.1, ?_, ?_, ?_, ?_⟩
  · intro w1 n o
    have h := detect_deadlock_iff cLockLimit w1 n o
    exact ⟨h.1, h.2.1, h.2.2.2.1, h.2.2.2.2.1⟩
  · intro e p hr
    simp only [wait_for_all] at hr
    cases hl : wait_for_all_loop cLockLimit env vm fuel w.threads_ 0 (set_managed w vm) 0 with
    | none => simp [hl] at hr
    | some r =>
      rcases wait_for_all_loop_bound cLockLimit env vm fuel w.threads_ 0 _ 0
          (Nat.zero_le _) r hl with ⟨n, o, p1, h1, h2, h3⟩ | ⟨k1, l1, p1, h1, _⟩ | ⟨p1, h1⟩
      · rw [hl, h1] at hr
        simp only [Option.some.injEq, Outcome.raises.injEq] at hr
        exact ⟨n, o, hr.1.symm, hr.1 ▸ rfl, h2, h3⟩
      · rw [hl, h1] at hr
        simp at hr
      · rw [hl, h1] at hr
        simp at hr
  · intro e p hr
    rcases try_lock_wait_loop_bound cLockLimit collect_requested_p yield env vm fuel 0 w 0
        (Nat.zero_le _) e p hr with h | ⟨n, h1, h2, h3⟩
    · exact Or.inl h
    · exact Or.inr ⟨n, h1, h1 ▸ rfl, h2, h3⟩
  · intro hw0 henv hyield hc extra hdef
    obtain ⟨r, hr, h | ⟨p, hp⟩⟩ := try_lock_wait_loop_escalates cLockLimit hc
      collect_requested_p yield env vm henv hyield (cLockLimit / 31 + 1 + extra) 0 w 0 hw0
      (Nat.zero_le _) (by omega)
    · obtain ⟨n, p, h1, h2, h3⟩ := h
      exact ⟨n, p, by rw [← h1]; exact hr, h2, h3⟩
    · exact absurd (by rw [← hp]; exact hr) (hdef p)

/-- Witness for C6, with the ceiling 200 and the counter of `wait` at 0: the
call of `wait_for_all` that waits for the managed thread at address 1 and the
call of `try_lock_wait` that waits for the token held by id 2 both end after the
waits 133 and 464, in the deadlock error with the accumulated wait 597. -/
theorem deadlock_overshoot_bounded_witness :
    wait_for_all 200 no_interference 5 spin_demo 0 =
      some (.raises (.thread_will_not_yield 597 1)
        { set_managed spin_demo 0 with wait_i := 2 }) ∧
    (∃ n o, Error.thread_will_not_yield 597 1 = .thread_will_not_yield n o ∧
      (Error.thread_will_not_yield 597 1).cls = .deadlock ∧ 200 < n ∧ n ≤ 200 + 854) ∧
    try_lock_wait 200 (fun _ => false) (fun w1 _ => .returns () w1) no_interference 5
        spin_demo 0 =
      some (.raises (.unable_to_lock 597) { spin_demo with wait_i := 2 }) ∧
    ((∃ w1, Outcome.returns () w1 =
        Outcome.raises (.unable_to_lock 597) { spin_demo with wait_i := 2 }) ∨
      (∃ n, Error.unable_to_lock 597 = .unable_to_lock n ∧
        (Error.unable_to_lock 597).cls = .deadlock ∧ 200 < n ∧ n ≤ 200 + 854)) ∧
    (∃ n p, try_lock_wait 200 (fun _ => false) (fun w1 _ => .returns () w1)
        no_interference (200 / 31 + 1 + 0) spin_demo 0 =
          some (.raises (.unable_to_lock n) p) ∧ 200 < n ∧ n ≤ 200 + 854) :=
  ⟨rfl,
   (deadlock_overshoot_bounded 200 (fun _ => false) (fun w1 _ => .returns () w1)
      no_interference 5 spin_demo 0).2.2.2.2.1 (.thread_will_not_yield 597 1)
      { set_managed spin_demo 0 with wait_i := 2 } rfl,
   rfl,
   (deadlock_overshoot_bounded 200 (fun _ => false) (fun w1 _ => .returns () w1)
      no_interference 5 spin_demo 0).2.2.2.2.2.1 (.unable_to_lock 597)
      { spin_demo with wait_i := 2 } rfl,
   (deadlock_overshoot_bounded 200 (fun _ => false) (fun w1 _ => .returns () w1)
      no_interference 5 spin_demo 0).2.2.2.2.2.2 (by decide) (fun _ _ h => h)
      (fun w1 h => ⟨w1, rfl, h⟩) (by norm_num) 0
      (fun p h =>
        Outcome.noConfusion (Option.some.inj
          ((show try_lock_wait 200 (fun _ => false) (fun w1 _ => .returns () w1)
              no_interference (200 / 31 + 1 + 0) spin_demo 0 =
                some (.raises (.unable_to_lock 597) { spin_demo with wait_i := 2 })
            from rfl).symm.trans h)))⟩

/-! ## Stop the world: `wait_for_all` with the phases fixed -/

end Rubinius
